import Mathlib

/-!
Verification of the combination-generator and incremental-inverse code of the
invert repository (src/gray.h, src/matrix.h, src/invert.cpp).

Machine integers (uint32_t) are modelled as Nat.  Overflow is only possible in
the factorial helper, where the reduction modulo 2 ^ 32 after each
multiplication is kept explicit; all cursor arithmetic in the generator stays
far below 2 ^ 32 for every size that the 32-bit code itself supports, so the
cursors are plain Nat.
-/

namespace Invert

/-- Modulus of 32-bit unsigned arithmetic. -/
def u32 : Nat := 2 ^ 32

/-- Fuelled body of count_bits from src/gray.h: for (; x; x >>= 1) count += x & 1.
The fuel only bounds the recursion; count_bits supplies fuel x, which is enough
because x / 2 strictly decreases below the fuel. -/
def count_bits_go : Nat → Nat → Nat
  | 0, _ => 0
  | fuel + 1, x => if x = 0 then 0 else x % 2 + count_bits_go fuel (x / 2)

/-- Embedding of count_bits from src/gray.h (population count). -/
def count_bits (x : Nat) : Nat := count_bits_go x x

/-- Fuelled body of set_bit from src/gray.h: r = 0; while (x >>= 1) ++r; return r. -/
def set_bit_go : Nat → Nat → Nat
  | 0, _ => 0
  | fuel + 1, x => if x / 2 = 0 then 0 else set_bit_go fuel (x / 2) + 1

/-- Embedding of set_bit from src/gray.h (index of most significant set bit;
returns 0 on inputs 0 and 1, as the C loop does). -/
def set_bit (x : Nat) : Nat := set_bit_go x x

/-- Loop of fact from src/gray.h: f = 1; for (; x > 1; --x) f *= x.  The
accumulator multiplication is a uint32_t multiplication, hence the explicit
reduction modulo 2 ^ 32. -/
def fact_go : Nat → Nat → Nat
  | 0, f => f
  | 1, f => f
  | x + 2, f => fact_go (x + 1) (f * (x + 2) % u32)

/-- Embedding of fact from src/gray.h. -/
def fact (x : Nat) : Nat := fact_go x 1

/-- Embedding of gray_generator_t::gray from src/gray.h: x ^ (x >> 1). -/
def gray (x : Nat) : Nat := x ^^^ (x >>> 1)

/-- State of gray_generator_t from src/gray.h: the five data members. -/
structure gray_generator_t where
  size_ : Nat
  pick_ : Nat
  reversed_ : Bool
  index_ : Nat
  combinations_ : Nat
deriving DecidableEq

/-- Forward scan of gray_generator_t::next: repeatedly increment the cursor,
stop with none when it reaches 2 ^ size (the code then flips direction), stop
with some when the Gray code of the cursor has popcount pick.  The fuel
2 ^ size - j used by fwd_search is exactly the number of increments available
before the boundary test fires; every reachable caller has j < 2 ^ size, so
the fuel never runs out before the boundary test. -/
def fwd_loop (size pick : Nat) : Nat → Nat → Option Nat
  | 0, _ => none
  | fuel + 1, j =>
    if j + 1 = 2 ^ size then none
    else if count_bits (gray (j + 1)) = pick then some (j + 1)
    else fwd_loop size pick fuel (j + 1)

/-- Forward search of gray_generator_t::next starting from cursor j. -/
def fwd_search (size pick j : Nat) : Option Nat := fwd_loop size pick (2 ^ size - j) j

/-- Reverse scan of gray_generator_t::next: repeatedly decrement the cursor,
stop with none when it reaches 0 (the code then flips direction), stop with
some when the Gray code of the cursor has popcount pick.  Fuel j is exactly
the number of decrements available before the zero test fires. -/
def rev_loop (size pick : Nat) : Nat → Nat → Option Nat
  | 0, _ => none
  | fuel + 1, j =>
    if j - 1 = 0 then none
    else if count_bits (gray (j - 1)) = pick then some (j - 1)
    else rev_loop size pick fuel (j - 1)

/-- Reverse search of gray_generator_t::next starting from cursor j. -/
def rev_search (size pick j : Nat) : Option Nat := rev_loop size pick j j

/-- Embedding of gray_generator_t::next from src/gray.h.  A successful scan
stores the new cursor in index_; a scan that hits the boundary only flips
reversed_ and leaves index_ unchanged. -/
def gray_next (g : gray_generator_t) : gray_generator_t :=
  if g.reversed_ then
    match rev_search g.size_ g.pick_ g.index_ with
    | some x => { g with index_ := x }
    | none => { g with reversed_ := false }
  else
    match fwd_search g.size_ g.pick_ g.index_ with
    | some x => { g with index_ := x }
    | none => { g with reversed_ := true }

/-- Embedding of the gray_generator_t constructor: initialise the members and
perform one next() call.  combinations_ is computed with uint32_t arithmetic:
the product of the two factorials is reduced modulo 2 ^ 32 before dividing. -/
def gray_generator_mk (size pick : Nat) : gray_generator_t :=
  gray_next
    { size_ := size, pick_ := pick, reversed_ := false, index_ := 0,
      combinations_ := fact size / (fact pick * fact (size - pick) % u32) }

/-- Embedding of gray_generator_t::value: the Gray code of the stored cursor. -/
def gray_generator_t.value (g : gray_generator_t) : Nat := gray g.index_

/-- State of gray_join_t from src/gray.h: the two sub-generators and the call
counter. -/
structure gray_join_t where
  small_ : gray_generator_t
  large_ : gray_generator_t
  count_ : Nat
deriving DecidableEq

/-- Initial gray_join_t state: small generator (4, 3), large generator (7, 4),
counter 0, per the member initialisers in src/gray.h. -/
def gray_join_mk : gray_join_t :=
  { small_ := gray_generator_mk 4 3, large_ := gray_generator_mk 7 4, count_ := 0 }

/-- Embedding of gray_join_t::next from src/gray.h: build the combined mask
from the sub-generator values at entry, increment the counter, advance the
small generator when the incremented counter is a positive multiple of
large_.combinations(), always advance the large generator, return the mask. -/
def gray_join_next (g : gray_join_t) : Nat × gray_join_t :=
  let ret := g.small_.value <<< g.large_.size_ ||| g.large_.value
  let count := g.count_ + 1
  let small := if 0 < count ∧ count % g.large_.combinations_ = 0 then gray_next g.small_
    else g.small_
  let large := gray_next g.large_
  (ret, { small_ := small, large_ := large, count_ := count })

/-- Joiner state after n calls to next(). -/
def jstate (n : Nat) : gray_join_t := (fun s => (gray_join_next s).2)^[n] gray_join_mk

/-- Value returned by the (n+1)-st call to gray_join_t::next (0-based output
index n). -/
def jout (n : Nat) : Nat := (gray_join_next (jstate n)).1

/-- Generator state after n next() calls following construction. -/
def gstate (size pick n : Nat) : gray_generator_t := gray_next^[n] (gray_generator_mk size pick)

/-- Value observed after n next() calls following construction. -/
def gobs (size pick n : Nat) : Nat := (gstate size pick n).value

/-- Inverse of the binary-to-Gray transform: the prefix-XOR map.  Used in the
proofs only; the program itself never inverts the transform. -/
def grayInv (g : Nat) : Nat :=
  if h : g = 0 then 0 else g ^^^ grayInv (g / 2)
termination_by g
decreasing_by exact Nat.div_lt_self (Nat.pos_of_ne_zero h) (by omega)

/-- Cursor whose Gray code is the all-ones word of width m (the alternating
bit pattern 1010..).  It is the least cursor whose Gray code has popcount m. -/
def J (m : Nat) : Nat := grayInv (2 ^ m - 1)

/-- Increasing list of the accepted cursors of a generator: every cursor in
[0, 2^size) whose Gray code has popcount pick.  The generator walks this list
forward, then backward, forever. -/
def acc_list (size pick : Nat) : List Nat :=
  (List.range (2 ^ size)).filter (fun z => count_bits (gray z) == pick)

/-- Entry i of the accepted-cursor list (0 when out of range): a total
accessor used to state trajectory facts without embedded bound proofs. -/
def acc (size pick i : Nat) : Nat := (acc_list size pick).getD i 0

/-- Observation index o sees a newly accepted value: either o = 0 (the accept
performed inside the constructor) or the o-th next() call accepted a new
cursor (flip calls leave the cursor unchanged and are not accepts). -/
def accepts_at (size pick o : Nat) : Prop :=
  o = 0 ∨ (1 ≤ o ∧ (gstate size pick o).index_ ≠ (gstate size pick (o - 1)).index_)

/-- Property checked along the joiner trajectory: popcount of every output is
7, and consecutive outputs differ in exactly two bit positions except at the
simultaneous direction flip of both sub-generators (output indices 139 mod
140), where they are equal. -/
def c1_prop (n : Nat) : Prop :=
  count_bits (jout n) = 7 ∧
    (if (n + 1) % 140 = 0 then jout (n + 1) = jout n
     else count_bits (jout n ^^^ jout (n + 1)) = 2)

instance (n : Nat) : Decidable (c1_prop n) := by unfold c1_prop; infer_instance

/-- Single-pass boolean check of c1_prop over a window of the trajectory,
threading the joiner state to keep evaluation linear. -/
def c1_check : Nat → gray_join_t → Bool
  | 0, _ => true
  | k + 1, s =>
    (count_bits (gray_join_next s).1 == 7) &&
      (if (s.count_ + 1) % 140 = 0
       then (gray_join_next (gray_join_next s).2).1 == (gray_join_next s).1
       else count_bits ((gray_join_next s).1 ^^^ (gray_join_next (gray_join_next s).2).1) == 2) &&
      c1_check k (gray_join_next s).2

/-- Selection bitmask (std::bitset of width 11 as a Nat below 2 ^ 11) and the
two index arrays main_to_comb (length 11) and comb_to_main (length 7) of
eigen_sherman.  The C arrays hold int values, modelled as Int. -/
structure sherman_state where
  selected : Nat
  main_to_comb : List Int
  comb_to_main : List Int
deriving DecidableEq

/-- Initialisation loop of eigen_sherman (src/invert.cpp lines 73 to 86):
walk the 11 global indices, assigning consecutive local slots to the selected
ones and -1 to the rest.  The C arrays start uninitialised; the loop writes
every cell of main_to_comb and, the selection having exactly 7 bits, every
cell of comb_to_main, so the zero-filled starting lists are irrelevant. -/
def init_maps (sel : Nat) : sherman_state :=
  let maps := (List.range 11).foldl
    (fun (st : List Int × List Int × Nat) mi =>
      if Nat.testBit sel mi then
        (st.1.set mi (Int.ofNat st.2.2), st.2.1.set st.2.2 (Int.ofNat mi), st.2.2 + 1)
      else
        (st.1.set mi (-1), st.2.1, st.2.2))
    (List.replicate 11 0, List.replicate 7 0, 0)
  { selected := sel, main_to_comb := maps.1, comb_to_main := maps.2.1 }

/-- One iteration of the eigen_sherman step loop, restricted to the selection
and the index maps (src/invert.cpp lines 113 to 127 and 151): compute the
removed and added global indices from the bitmask difference (the uint32_t
complement is XOR with the 32-bit all-ones mask), move the freed local slot
to the added index, and adopt the next selection (truncated to the 11-bit
width of the bitset). -/
def sherman_step (s : sherman_state) (selected_next : Nat) : sherman_state :=
  let removed := set_bit (s.selected &&& ((u32 - 1) ^^^ selected_next))
  let added := set_bit (selected_next &&& ((u32 - 1) ^^^ s.selected))
  let comb_swap_index := s.main_to_comb.getD removed 0
  { selected := selected_next % 2 ^ 11,
    main_to_comb := (s.main_to_comb.set removed (-1)).set added comb_swap_index,
    comb_to_main := s.comb_to_main.set comb_swap_index.toNat (Int.ofNat added) }

/-- Driver state after n iterations of the step loop (n = 0 is the state
right after initialisation; the loop runs for n = 1 to 139). -/
def driver_state : Nat → sherman_state
  | 0 => init_maps (jout 0 % 2 ^ 11)
  | n + 1 => sherman_step (driver_state n) (jout (n + 1))

/-- Mutual consistency of the two index arrays, as the spec states it: every
selected global index is mapped to a local slot below 7 whose reverse map
returns the same global index, unselected indices map to -1, the selection
has exactly 7 members, and distinct selected indices occupy distinct slots. -/
def maps_consistent (s : sherman_state) : Prop :=
  s.main_to_comb.length = 11 ∧ s.comb_to_main.length = 7 ∧
    count_bits s.selected = 7 ∧ s.selected < 2 ^ 11 ∧
    (∀ g, g < 11 →
      (if Nat.testBit s.selected g then
        0 ≤ s.main_to_comb.getD g 0 ∧ s.main_to_comb.getD g 0 < 7 ∧
          s.comb_to_main.getD (s.main_to_comb.getD g 0).toNat 0 = Int.ofNat g
      else s.main_to_comb.getD g 0 = -1)) ∧
    (∀ g1, g1 < 11 → ∀ g2, g2 < 11 → Nat.testBit s.selected g1 → Nat.testBit s.selected g2 →
      s.main_to_comb.getD g1 0 = s.main_to_comb.getD g2 0 → g1 = g2)

/-- Executable form of maps_consistent, used so the kernel evaluates the
139-step check over plain booleans. -/
def maps_checkB (s : sherman_state) : Bool :=
  (s.main_to_comb.length == 11) && (s.comb_to_main.length == 7) &&
    (count_bits s.selected == 7) && decide (s.selected < 2 ^ 11) &&
    ((List.range 11).all fun g =>
      if Nat.testBit s.selected g then
        decide (0 ≤ s.main_to_comb.getD g 0) && decide (s.main_to_comb.getD g 0 < 7) &&
          (s.comb_to_main.getD (s.main_to_comb.getD g 0).toNat 0 == Int.ofNat g)
      else s.main_to_comb.getD g 0 == -1) &&
    ((List.range 11).all fun g1 => (List.range 11).all fun g2 =>
      if Nat.testBit s.selected g1 && Nat.testBit s.selected g2 &&
          (s.main_to_comb.getD g1 0 == s.main_to_comb.getD g2 0) then g1 == g2
      else true)

/-- Single-pass boolean check of maps_consistent along the driver trajectory,
threading the joiner state to keep evaluation linear in the step count. -/
def driver_check : Nat → sherman_state → gray_join_t → Bool
  | 0, s, _ => maps_checkB s
  | k + 1, s, j =>
    maps_checkB s && driver_check k (sherman_step s (gray_join_next j).1) (gray_join_next j).2

example : fact 7 = 5040 := by decide
example : fact 7 / (fact 4 * fact 3 % u32) = 35 := by decide
example : (gray_generator_mk 4 3).index_ = 5 := by decide
example : (List.range 9).map (gobs 4 3) = [7, 13, 14, 11, 11, 14, 13, 7, 7] := by decide
example : gstate 4 3 8 = gstate 4 3 0 := by decide
example : jout 0 = 911 := by decide
example : count_bits (jout 0) = 7 := by decide

/-! Basic facts about the generator step and the joiner trajectory. -/

/-- sherman_morrison_update_inverse from src/matrix.h over exact rational
arithmetic: given inv = A^-1, a column vector u and a row vector v, returns
inv - (inv * u) * (v * inv) / (1 + v * inv * u).  The 1 x 1 product
v * inv * u is the scalar denominator. -/
def sherman_morrison_update_inverse {k : Nat} (inv : Matrix (Fin k) (Fin k) ℚ)
    (u : Matrix (Fin k) (Fin 1) ℚ) (v : Matrix (Fin 1) (Fin k) ℚ) :
    Matrix (Fin k) (Fin k) ℚ :=
  inv - (1 + (v * inv * u) 0 0)⁻¹ • (inv * u * (v * inv))

/-- Eigen::VectorXd::Unit(comb_size, comb_swap_index) of the driver: the unit
column vector selecting one slot. -/
def unit_col {k : Nat} (slot : Fin k) : Matrix (Fin k) (Fin 1) ℚ :=
  fun i _ => if i = slot then 1 else 0

/-- Eigen::RowVectorXd::Unit(comb_size, comb_swap_index) of the driver: the
unit row vector selecting one slot. -/
def unit_row {k : Nat} (slot : Fin k) : Matrix (Fin 1) (Fin k) ℚ :=
  fun _ j => if j = slot then 1 else 0

/-- v_row = new_row - combination.row(comb_swap_index) of the driver: the row
difference vector of the row replacement step. -/
def row_delta {k : Nat} (A : Matrix (Fin k) (Fin k) ℚ) (slot : Fin k) (r : Fin k → ℚ) :
    Matrix (Fin 1) (Fin k) ℚ :=
  fun _ j => r j - A slot j

/-- u_col = new_col - combination.col(comb_swap_index) of the driver: the
column difference vector of the column replacement step. -/
def col_delta {k : Nat} (A : Matrix (Fin k) (Fin k) ℚ) (slot : Fin k) (c : Fin k → ℚ) :
    Matrix (Fin k) (Fin 1) ℚ :=
  fun i _ => c i - A i slot

theorem gray_next_size_eq (g : gray_generator_t) : (gray_next g).size_ = g.size_ := by
  unfold gray_next; split <;> split <;> rfl

theorem gray_next_pick_eq (g : gray_generator_t) : (gray_next g).pick_ = g.pick_ := by
  unfold gray_next; split <;> split <;> rfl

theorem gray_next_combinations_eq (g : gray_generator_t) :
    (gray_next g).combinations_ = g.combinations_ := by
  unfold gray_next; split <;> split <;> rfl

theorem jstate_zero : jstate 0 = gray_join_mk := rfl

theorem jstate_succ (n : Nat) : jstate (n + 1) = (gray_join_next (jstate n)).2 :=
  Function.iterate_succ_apply' _ n _

theorem gray_join_next_count (g : gray_join_t) : (gray_join_next g).2.count_ = g.count_ + 1 := rfl

theorem gray_join_next_large (g : gray_join_t) : (gray_join_next g).2.large_ = gray_next g.large_ :=
  rfl

theorem gray_join_next_small (g : gray_join_t) :
    (gray_join_next g).2.small_ =
      if 0 < g.count_ + 1 ∧ (g.count_ + 1) % g.large_.combinations_ = 0 then gray_next g.small_
      else g.small_ := rfl

theorem gray_join_next_fst (g : gray_join_t) :
    (gray_join_next g).1 = g.small_.value <<< g.large_.size_ ||| g.large_.value := rfl

theorem jstate_count (n : Nat) : (jstate n).count_ = n := by
  induction n with
  | zero => rfl
  | succ n ih => rw [jstate_succ, gray_join_next_count, ih]

theorem jstate_large (n : Nat) : (jstate n).large_ = gstate 7 4 n := by
  induction n with
  | zero => rfl
  | succ n ih =>
    rw [jstate_succ, gray_join_next_large, ih]
    exact (Function.iterate_succ_apply' _ _ _).symm

theorem jlarge_comb (n : Nat) : (jstate n).large_.combinations_ = 35 := by
  induction n with
  | zero => rfl
  | succ n ih => rw [jstate_succ, gray_join_next_large, gray_next_combinations_eq, ih]

theorem jlarge_size (n : Nat) : (jstate n).large_.size_ = 7 := by
  induction n with
  | zero => rfl
  | succ n ih => rw [jstate_succ, gray_join_next_large, gray_next_size_eq, ih]

theorem jout_eq (n : Nat) :
    jout n = (jstate n).small_.value <<< (jstate n).large_.size_ ||| (jstate n).large_.value := rfl

theorem jsmall_succ (n : Nat) :
    (jstate (n + 1)).small_ =
      if (n + 1) % 35 = 0 then gray_next (jstate n).small_ else (jstate n).small_ := by
  rw [jstate_succ, gray_join_next_small, jstate_count, jlarge_comb]
  exact if_congr (by simp) rfl rfl

theorem jlarge_succ (n : Nat) : (jstate (n + 1)).large_ = gray_next (jstate n).large_ := by
  rw [jstate_succ, gray_join_next_large]

set_option maxRecDepth 40000 in
theorem jpair_period (n : Nat) :
    (jstate (n + 280)).small_ = (jstate n).small_ ∧
      (jstate (n + 280)).large_ = (jstate n).large_ := by
  induction n with
  | zero => exact ⟨by decide, by decide⟩
  | succ n ih =>
    have harr : n + 1 + 280 = n + 280 + 1 := by omega
    rw [harr]
    constructor
    · rw [jsmall_succ (n + 280), jsmall_succ n, ih.1,
        show (n + 280 + 1) % 35 = (n + 1) % 35 from by omega]
    · rw [jlarge_succ (n + 280), jlarge_succ n, ih.2]

theorem jout_period (n : Nat) : jout (n + 280) = jout n := by
  rw [jout_eq, jout_eq, (jpair_period n).1, (jpair_period n).2]

theorem c1_check_sound : ∀ k n, c1_check k (jstate n) = true → ∀ m, m < k → c1_prop (n + m) := by
  intro k
  induction k with
  | zero => intro n _ m hm; omega
  | succ k ih =>
    intro n h m hm
    rw [c1_check, Bool.and_assoc, Bool.and_eq_true, Bool.and_eq_true] at h
    obtain ⟨h1, h2, h3⟩ := h
    rw [← jstate_succ] at h3
    match m with
    | 0 =>
      refine ⟨eq_of_beq h1, ?_⟩
      rw [jstate_count] at h2
      by_cases hc : (n + 1) % 140 = 0
      · rw [if_pos hc]
        rw [if_pos hc] at h2
        rw [← jstate_succ] at h2
        exact eq_of_beq h2
      · rw [if_neg hc]
        rw [if_neg hc] at h2
        rw [← jstate_succ] at h2
        exact eq_of_beq h2
    | m + 1 =>
      have := ih (n + 1) h3 m (by omega)
      simpa [Nat.add_assoc, Nat.add_comm 1 m] using this

set_option maxRecDepth 40000 in
theorem c1_prop_lt (m : Nat) (hm : m < 280) : c1_prop m := by
  have h := c1_check_sound 280 0 (by decide) m hm
  simpa using h

theorem c1_prop_step (n : Nat) (h : c1_prop n) : c1_prop (n + 280) := by
  unfold c1_prop at h ⊢
  have e1 : jout (n + 280) = jout n := jout_period n
  have e2 : jout (n + 280 + 1) = jout (n + 1) := by
    have := jout_period (n + 1)
    rw [show n + 1 + 280 = n + 280 + 1 from by omega] at this
    exact this
  have e3 : (n + 280 + 1) % 140 = (n + 1) % 140 := by omega
  rw [e1, e2, e3]
  exact h

theorem c1_prop_all (n : Nat) : c1_prop n := by
  have aux : ∀ q r, c1_prop r → c1_prop (280 * q + r) := by
    intro q
    induction q with
    | zero => intro r h; simpa using h
    | succ q ih =>
      intro r h
      have : 280 * (q + 1) + r = 280 * q + r + 280 := by ring
      rw [this]
      exact c1_prop_step _ (ih r h)
  have h := aux (n / 280) (n % 280) (c1_prop_lt _ (Nat.mod_lt _ (by omega)))
  rwa [Nat.div_add_mod] at h

set_option maxRecDepth 40000 in
/-- C1 counterexample: outputs 139 and 140 of the joiner are equal (both
sub-generators perform a direction flip during call 140), so the symmetric
difference of this pair of consecutive outputs has popcount 0, not 2. -/
theorem joiner_consecutive_not_always_two :
    jout 140 = jout 139 ∧ ¬ count_bits (jout 139 ^^^ jout 140) = 2 := by decide

/-- C1 (amended): every output of gray_join_t::next has popcount 7 =
small.pick + large.pick, and the symmetric difference of two consecutive
outputs has popcount exactly 2, except for the pairs at output indices
n ≡ 139 (mod 140) (the first such pair lies just beyond the 140 outputs the
driver consumes), where both sub-generators flip direction simultaneously and
the two consecutive outputs are equal. -/
theorem joiner_popcount_and_single_swap (n : Nat) :
    count_bits (jout n) = 7 ∧
      (if (n + 1) % 140 = 0 then jout (n + 1) = jout n
       else count_bits (jout n ^^^ jout (n + 1)) = 2) :=
  c1_prop_all n

/-- C7: each call of gray_join_t::next returns the mask built from the
sub-generator values at entry (small bits shifted above the large
generator's size), increments the call counter (which equals the number of
calls made), advances the small generator exactly when the incremented
counter is a positive multiple of large.combinations() = 35, and
unconditionally advances the large generator. -/
theorem joiner_next_step_behavior (n : Nat) :
    jout n = (jstate n).small_.value <<< (jstate n).large_.size_ ||| (jstate n).large_.value ∧
      (jstate n).count_ = n ∧
      (jstate (n + 1)).count_ = (jstate n).count_ + 1 ∧
      (jstate (n + 1)).large_ = gray_next (jstate n).large_ ∧
      (jstate (n + 1)).small_ =
        (if 0 < (jstate n).count_ + 1 ∧
            ((jstate n).count_ + 1) % (jstate n).large_.combinations_ = 0
         then gray_next (jstate n).small_ else (jstate n).small_) ∧
      (jstate n).large_.combinations_ = 35 ∧ (jstate n).large_.size_ = 7 := by
  refine ⟨jout_eq n, jstate_count n, ?_, jlarge_succ n, ?_, jlarge_comb n, jlarge_size n⟩
  · rw [jstate_count, jstate_count]
  · rw [jsmall_succ, jstate_count, jlarge_comb]
    exact (if_congr (by simp) rfl rfl).symm

/-! Embedding of the index-mapping part of eigen_sherman from src/invert.cpp.
The selection bitmask and the two index arrays evolve independently of the
numeric matrix contents, so the claims about them are settled on a state that
carries exactly those components. -/

theorem maps_checkB_iff (s : sherman_state) : maps_checkB s = true ↔ maps_consistent s := by
  unfold maps_checkB maps_consistent
  simp only [Bool.and_eq_true, beq_iff_eq, decide_eq_true_eq, List.all_eq_true, List.mem_range]
  constructor
  · rintro ⟨⟨⟨⟨⟨h1, h2⟩, h3⟩, h4⟩, h5⟩, h6⟩
    refine ⟨h1, h2, h3, h4, ?_, ?_⟩
    · intro g hg
      have hb := h5 g hg
      by_cases ht : Nat.testBit s.selected g
      · rw [if_pos ht] at hb ⊢
        simp only [Bool.and_eq_true, beq_iff_eq, decide_eq_true_eq] at hb
        exact ⟨hb.1.1, hb.1.2, hb.2⟩
      · rw [if_neg ht] at hb ⊢
        simpa using hb
    · intro g1 hg1 g2 hg2 ht1 ht2 heq
      have hb := h6 g1 hg1 g2 hg2
      rw [if_pos (And.intro (And.intro ht1 ht2) heq)] at hb
      simpa using hb
  · rintro ⟨h1, h2, h3, h4, h5, h6⟩
    refine ⟨⟨⟨⟨⟨h1, h2⟩, h3⟩, h4⟩, ?_⟩, ?_⟩
    · intro g hg
      have hp := h5 g hg
      by_cases ht : Nat.testBit s.selected g
      · rw [if_pos ht] at hp ⊢
        simp only [Bool.and_eq_true, beq_iff_eq, decide_eq_true_eq]
        exact ⟨⟨hp.1, hp.2.1⟩, hp.2.2⟩
      · rw [if_neg ht] at hp ⊢
        simpa using hp
    · intro g1 hg1 g2 hg2
      by_cases hc : (Nat.testBit s.selected g1 = true ∧ Nat.testBit s.selected g2 = true) ∧
          s.main_to_comb.getD g1 0 = s.main_to_comb.getD g2 0
      · rw [if_pos hc]
        simpa using h6 g1 hg1 g2 hg2 hc.1.1 hc.1.2 hc.2
      · rw [if_neg hc]

theorem driver_check_sound :
    ∀ k n, driver_check k (driver_state n) (jstate (n + 1)) = true →
      ∀ m, m ≤ k → maps_consistent (driver_state (n + m)) := by
  intro k
  induction k with
  | zero =>
    intro n h m hm
    have hm0 : m = 0 := by omega
    subst hm0
    exact (maps_checkB_iff _).mp h
  | succ k ih =>
    intro n h m hm
    rw [driver_check, Bool.and_eq_true] at h
    obtain ⟨h1, h2⟩ := h
    have hstep : sherman_step (driver_state n) (gray_join_next (jstate (n + 1))).1 =
        driver_state (n + 1) := rfl
    rw [hstep, ← jstate_succ] at h2
    match m with
    | 0 => exact (maps_checkB_iff _).mp h1
    | m + 1 =>
      have := ih (n + 1) h2 m (by omega)
      simpa [Nat.add_assoc, Nat.add_comm 1 m] using this

set_option maxRecDepth 200000 in
/-- C6: throughout the eigen_sherman step loop (after initialisation, state 0,
and after each of the 139 remapping steps), the two index arrays are mutually
inverse and complete: every selected global index maps to a local slot below
7 whose reverse entry is that index, exactly 7 global indices are selected
and occupy pairwise distinct slots, and main_to_comb is -1 exactly on the
unselected indices. -/
theorem driver_maps_consistent (n : Nat) (hn : n ≤ 139) :
    maps_consistent (driver_state n) := by
  have h := driver_check_sound 139 0 (by decide) n hn
  simpa using h

/-- Witness for driver_maps_consistent at the concrete step 1. -/
theorem driver_maps_consistent_witness :
    1 ≤ 139 ∧ maps_consistent (driver_state 1) :=
  ⟨by decide, driver_maps_consistent 1 (by decide)⟩

/-! Arithmetic of the Gray transform and of count_bits.  These lemmas support
the general (all sizes, all picks) claims about the generator. -/

theorem shiftRight_one_eq (x : Nat) : x >>> 1 = x / 2 := by
  rw [Nat.shiftRight_eq_div_pow, pow_one]

theorem xor_cancel_left (a b : Nat) : a ^^^ (a ^^^ b) = b := by
  rw [← Nat.xor_assoc, Nat.xor_self, Nat.zero_xor]

theorem xor_pair_cancel (a b c : Nat) : (a ^^^ b) ^^^ (a ^^^ c) = b ^^^ c := by
  apply Nat.eq_of_testBit_eq
  intro i
  simp only [Nat.testBit_xor]
  cases a.testBit i <;> cases b.testBit i <;> cases c.testBit i <;> rfl

theorem gray_xor (a b : Nat) : gray (a ^^^ b) = gray a ^^^ gray b := by
  apply Nat.eq_of_testBit_eq
  intro i
  simp only [gray, Nat.testBit_xor, Nat.testBit_shiftRight]
  cases a.testBit i <;> cases b.testBit i <;> cases a.testBit (1 + i) <;>
    cases b.testBit (1 + i) <;> rfl

theorem gray_div_two (x : Nat) : gray x / 2 = gray (x / 2) := by
  apply Nat.eq_of_testBit_eq
  intro i
  rw [Nat.testBit_div_two, gray, gray, Nat.testBit_xor, Nat.testBit_xor, Nat.testBit_shiftRight,
    Nat.testBit_shiftRight, Nat.testBit_div_two, Nat.testBit_div_two,
    show 1 + (i + 1) = i + 1 + 1 from by omega, show 1 + i = i + 1 from by omega]

theorem count_bits_go_congr :
    ∀ x fuel fuel', x ≤ fuel → x ≤ fuel' → count_bits_go fuel x = count_bits_go fuel' x := by
  intro x
  induction x using Nat.strong_induction_on with
  | _ x ih =>
    intro fuel fuel' h h'
    match fuel, fuel' with
    | 0, 0 => rfl
    | 0, f' + 1 =>
      have hx : x = 0 := by omega
      subst hx; simp [count_bits_go]
    | f + 1, 0 =>
      have hx : x = 0 := by omega
      subst hx; simp [count_bits_go]
    | f + 1, f' + 1 =>
      by_cases hx : x = 0
      · subst hx; simp [count_bits_go]
      · rw [count_bits_go, count_bits_go, if_neg hx, if_neg hx]
        have hlt : x / 2 < x := Nat.div_lt_self (by omega) (by omega)
        rw [ih (x / 2) hlt f f' (by omega) (by omega)]

theorem count_bits_unfold (x : Nat) : count_bits x = x % 2 + count_bits (x / 2) := by
  by_cases hx : x = 0
  · subst hx; rfl
  · obtain ⟨y, rfl⟩ : ∃ y, x = y + 1 := ⟨x - 1, by omega⟩
    show count_bits_go (y + 1) (y + 1) = _
    rw [count_bits_go, if_neg hx]
    congr 1
    exact count_bits_go_congr _ _ _ (by omega) (by omega)

theorem gray_grayInv (g : Nat) : gray (grayInv g) = g := by
  induction g using Nat.strong_induction_on with
  | _ g ih =>
    by_cases hg : g = 0
    · subst hg; simp [grayInv, gray]
    · rw [grayInv, dif_neg hg, gray_xor]
      have hlt : g / 2 < g := Nat.div_lt_self (by omega) (by omega)
      rw [ih (g / 2) hlt]
      show (g ^^^ g >>> 1) ^^^ g / 2 = g
      rw [shiftRight_one_eq, Nat.xor_assoc, Nat.xor_self, Nat.xor_zero]

theorem grayInv_gray (x : Nat) : grayInv (gray x) = x := by
  induction x using Nat.strong_induction_on with
  | _ x ih =>
    by_cases hx : x = 0
    · subst hx; simp [grayInv, gray]
    · have hg : gray x ≠ 0 := by
        intro h
        have hxx : x = x >>> 1 := Nat.xor_eq_zero.mp h
        rw [shiftRight_one_eq] at hxx
        have hlt2 : x / 2 < x := Nat.div_lt_self (by omega) (by omega)
        omega
      rw [grayInv, dif_neg hg, gray_div_two]
      have hlt : x / 2 < x := Nat.div_lt_self (by omega) (by omega)
      rw [ih (x / 2) hlt]
      show (x ^^^ x >>> 1) ^^^ x / 2 = x
      rw [shiftRight_one_eq, Nat.xor_assoc, Nat.xor_self, Nat.xor_zero]

theorem gray_lt_two_pow {x n : Nat} (h : x < 2 ^ n) : gray x < 2 ^ n := by
  rw [gray, shiftRight_one_eq]
  exact Nat.xor_lt_two_pow h (Nat.lt_of_le_of_lt (Nat.div_le_self x 2) h)

theorem grayInv_lt_two_pow {g n : Nat} (h : g < 2 ^ n) : grayInv g < 2 ^ n := by
  induction g using Nat.strong_induction_on with
  | _ g ih =>
    by_cases hg : g = 0
    · subst hg
      simpa [grayInv] using Nat.pos_of_ne_zero (a := 2 ^ n) (Nat.pos_iff.mp (Nat.two_pow_pos n)).symm
    · rw [grayInv, dif_neg hg]
      have hlt : g / 2 < g := Nat.div_lt_self (by omega) (by omega)
      exact Nat.xor_lt_two_pow h (ih (g / 2) hlt (by omega))

theorem lt_two_pow_of_gray_lt {x n : Nat} (h : gray x < 2 ^ n) : x < 2 ^ n := by
  have := grayInv_lt_two_pow h
  rwa [grayInv_gray] at this

theorem xor_mod_two (a b : Nat) : (a ^^^ b) % 2 = (a % 2 + b % 2) % 2 := by
  have h := Nat.testBit_xor a b 0
  simp only [Nat.testBit_zero] at h
  rcases Nat.mod_two_eq_zero_or_one a with ha | ha <;>
    rcases Nat.mod_two_eq_zero_or_one b with hb | hb <;>
      rcases Nat.mod_two_eq_zero_or_one (a ^^^ b) with hx | hx <;>
        simp [ha, hb, hx] at h ⊢

theorem mask_xor_eq_sub : ∀ m z, z < 2 ^ m → (2 ^ m - 1) ^^^ z = 2 ^ m - 1 - z := by
  intro m
  induction m with
  | zero =>
    intro z hz
    interval_cases z
    rfl
  | succ m ih =>
    intro z hz
    have hpow : 2 ^ (m + 1) = 2 * 2 ^ m := by rw [Nat.pow_succ]; ring
    have hq : z / 2 < 2 ^ m := by omega
    have hdiv : ((2 ^ (m + 1) - 1) ^^^ z) / 2 = 2 ^ m - 1 - z / 2 := by
      rw [Nat.xor_div_two, show (2 ^ (m + 1) - 1) / 2 = 2 ^ m - 1 from by omega, ih (z / 2) hq]
    have hmod : ((2 ^ (m + 1) - 1) ^^^ z) % 2 = ((2 ^ (m + 1) - 1) % 2 + z % 2) % 2 :=
      xor_mod_two _ z
    have hm1 : (2 ^ (m + 1) - 1) % 2 = 1 := by omega
    have hx := Nat.div_add_mod ((2 ^ (m + 1) - 1) ^^^ z) 2
    have hz2 := Nat.div_add_mod z 2
    have hzm := Nat.mod_lt z (y := 2) (by omega)
    omega

theorem two_pow_xor_eq_add : ∀ n g, g < 2 ^ n → 2 ^ n ^^^ g = 2 ^ n + g := by
  intro n
  induction n with
  | zero =>
    intro g hg
    interval_cases g
    rfl
  | succ n ih =>
    intro g hg
    have hpow : 2 ^ (n + 1) = 2 * 2 ^ n := by rw [Nat.pow_succ]; ring
    have hq : g / 2 < 2 ^ n := by omega
    have hdiv : (2 ^ (n + 1) ^^^ g) / 2 = 2 ^ n + g / 2 := by
      rw [Nat.xor_div_two, show 2 ^ (n + 1) / 2 = 2 ^ n from by omega, ih (g / 2) hq]
    have hmod : (2 ^ (n + 1) ^^^ g) % 2 = (2 ^ (n + 1) % 2 + g % 2) % 2 := xor_mod_two _ g
    have hm1 : 2 ^ (n + 1) % 2 = 0 := by omega
    have hx := Nat.div_add_mod (2 ^ (n + 1) ^^^ g) 2
    have hz2 := Nat.div_add_mod g 2
    have hzm := Nat.mod_lt g (y := 2) (by omega)
    omega

theorem count_bits_two_pow_add : ∀ n g, g < 2 ^ n → count_bits (2 ^ n + g) = 1 + count_bits g := by
  intro n
  induction n with
  | zero =>
    intro g hg
    interval_cases g
    rfl
  | succ n ih =>
    intro g hg
    have hpow : 2 ^ (n + 1) = 2 * 2 ^ n := by rw [Nat.pow_succ]; ring
    have hq : g / 2 < 2 ^ n := by omega
    rw [count_bits_unfold (2 ^ (n + 1) + g), count_bits_unfold g,
      show (2 ^ (n + 1) + g) % 2 = g % 2 from by omega,
      show (2 ^ (n + 1) + g) / 2 = 2 ^ n + g / 2 from by omega, ih (g / 2) hq]
    omega

theorem count_bits_le_of_lt_two_pow : ∀ n g, g < 2 ^ n → count_bits g ≤ n := by
  intro n
  induction n with
  | zero =>
    intro g hg
    interval_cases g
    exact Nat.le_refl 0
  | succ n ih =>
    intro g hg
    have hpow : 2 ^ (n + 1) = 2 * 2 ^ n := by rw [Nat.pow_succ]; ring
    have hq : g / 2 < 2 ^ n := by omega
    rw [count_bits_unfold g]
    have := ih (g / 2) hq
    omega

theorem count_bits_two_pow_sub_one : ∀ m, count_bits (2 ^ m - 1) = m := by
  intro m
  induction m with
  | zero => rfl
  | succ m ih =>
    have hpow : 2 ^ (m + 1) = 2 * 2 ^ m := by rw [Nat.pow_succ]; ring
    have hp1 : 1 ≤ 2 ^ m := Nat.one_le_two_pow
    rw [count_bits_unfold, show (2 ^ (m + 1) - 1) % 2 = 1 from by omega,
      show (2 ^ (m + 1) - 1) / 2 = 2 ^ m - 1 from by omega, ih]
    omega

theorem count_bits_eq_zero_iff (x : Nat) : count_bits x = 0 ↔ x = 0 := by
  constructor
  · intro h
    induction x using Nat.strong_induction_on with
    | _ x ih =>
      by_cases hx : x = 0
      · exact hx
      · rw [count_bits_unfold] at h
        have hlt : x / 2 < x := Nat.div_lt_self (by omega) (by omega)
        have := ih (x / 2) hlt (by omega)
        omega
  · intro h; subst h; rfl

theorem count_bits_two_pow (n : Nat) : count_bits (2 ^ n) = 1 := by
  have := count_bits_two_pow_add n 0 (Nat.two_pow_pos n)
  simpa using this

theorem count_bits_two_pow_xor {a n : Nat} (h : a < n) :
    count_bits (2 ^ n ^^^ 2 ^ a) = 2 := by
  have ha : 2 ^ a < 2 ^ n := Nat.pow_lt_pow_right (by omega) h
  rw [two_pow_xor_eq_add n _ ha, count_bits_two_pow_add n _ ha, count_bits_two_pow]

theorem gray_two_pow_sub_one (m : Nat) : gray (2 ^ (m + 1) - 1) = 2 ^ m := by
  have hpow : 2 ^ (m + 1) = 2 * 2 ^ m := by rw [Nat.pow_succ]; ring
  have hp1 : 1 ≤ 2 ^ m := Nat.one_le_two_pow
  rw [gray, shiftRight_one_eq, show (2 ^ (m + 1) - 1) / 2 = 2 ^ m - 1 from by omega]
  have h1 : (2 ^ m - 1) < 2 ^ (m + 1) := by omega
  rw [mask_xor_eq_sub (m + 1) _ h1]
  omega

theorem gray_J (m : Nat) : gray (J m) = 2 ^ m - 1 := gray_grayInv _

theorem J_lt_two_pow (m : Nat) : J m < 2 ^ m :=
  grayInv_lt_two_pow (by have := Nat.two_pow_pos m; omega)

theorem count_bits_gray_J (m : Nat) : count_bits (gray (J m)) = m := by
  rw [gray_J, count_bits_two_pow_sub_one]

theorem J_zero : J 0 = 0 := by simp [J, grayInv]

theorem mask_xor_J (m : Nat) : (2 ^ (m + 1) - 1) ^^^ J (m + 1) = J m := by
  have hpow : 2 ^ (m + 1) = 2 * 2 ^ m := by rw [Nat.pow_succ]; ring
  have hp1 : 1 ≤ 2 ^ m := Nat.one_le_two_pow
  have h1 : 2 ^ m < 2 ^ (m + 1) := Nat.pow_lt_pow_right (by omega) (by omega)
  have hg : gray ((2 ^ (m + 1) - 1) ^^^ J (m + 1)) = gray (J m) := by
    rw [gray_xor, gray_two_pow_sub_one, gray_J, gray_J, Nat.xor_comm,
      mask_xor_eq_sub (m + 1) _ h1]
    omega
  have h := congrArg grayInv hg
  rwa [grayInv_gray, grayInv_gray] at h

theorem J_one : J 1 = 1 := by
  show grayInv (2 ^ 1 - 1) = 1
  rw [show (2 ^ 1 - 1 : Nat) = gray 1 from rfl, grayInv_gray]

/-- Reflection of the Gray code about the midpoint of [0, 2^(n+1)): for a
cursor z in the upper half, the complementary cursor lies in the lower half
and its Gray code is that of z with the top bit removed. -/
theorem gray_upper_decomp {n z : Nat} (h1 : 2 ^ n ≤ z) (h2 : z < 2 ^ (n + 1)) :
    ((2 ^ (n + 1) - 1) ^^^ z) < 2 ^ n ∧
      count_bits (gray z) = count_bits (gray ((2 ^ (n + 1) - 1) ^^^ z)) + 1 := by
  have hpow : 2 ^ (n + 1) = 2 * 2 ^ n := by rw [Nat.pow_succ]; ring
  have hp1 : 1 ≤ 2 ^ n := Nat.one_le_two_pow
  have hglt : gray z < 2 ^ (n + 1) := gray_lt_two_pow h2
  have htz : z.testBit n = true := by
    obtain ⟨w, rfl⟩ : ∃ w, z = 2 ^ n + w := ⟨z - 2 ^ n, by omega⟩
    rw [Nat.testBit_two_pow_add_eq, Nat.testBit_lt_two_pow (by omega)]
    rfl
  have htz2 : (z / 2).testBit n = false := Nat.testBit_lt_two_pow (by omega)
  have htg : (gray z).testBit n = true := by
    rw [gray, shiftRight_one_eq, Nat.testBit_xor, htz, htz2]
    rfl
  have hgge : 2 ^ n ≤ gray z := Nat.testBit_implies_ge htg
  have hgdec : 2 ^ n ^^^ gray z = gray z - 2 ^ n := by
    have hglt2 : gray z - 2 ^ n < 2 ^ n := by omega
    conv_lhs => rw [show gray z = 2 ^ n + (gray z - 2 ^ n) from by omega]
    rw [← two_pow_xor_eq_add n _ hglt2, xor_cancel_left]
  have hmw : gray ((2 ^ (n + 1) - 1) ^^^ z) = gray z - 2 ^ n := by
    rw [gray_xor, gray_two_pow_sub_one, hgdec]
  constructor
  · have := mask_xor_eq_sub (n + 1) z h2
    omega
  · rw [hmw, show count_bits (gray z) = count_bits (2 ^ n + (gray z - 2 ^ n)) from by
      rw [show 2 ^ n + (gray z - 2 ^ n) = gray z from by omega],
      count_bits_two_pow_add n _ (by omega)]
    omega

/-- No cursor strictly between the maximal pick-weight cursor of [0, 2^n) and
2^n has Gray weight p + 1.  The maximal cursor is the complement of J p. -/
theorem maxB_bound (n p : Nat) (hp : p + 1 ≤ n)
    (hmin : ∀ z, z < J p → count_bits (gray z) ≠ p) :
    ∀ z, ((2 ^ n - 1) ^^^ J p) < z → z < 2 ^ n → count_bits (gray z) ≠ p + 1 := by
  obtain ⟨n', rfl⟩ : ∃ n', n = n' + 1 := ⟨n - 1, by omega⟩
  intro z hz1 hz2 hcount
  have hpow : 2 ^ (n' + 1) = 2 * 2 ^ n' := by rw [Nat.pow_succ]; ring
  have hJ : J p < 2 ^ n' :=
    Nat.lt_of_lt_of_le (J_lt_two_pow p) (Nat.pow_le_pow_right (by omega) (by omega))
  have hM : (2 ^ (n' + 1) - 1) ^^^ J p = 2 ^ (n' + 1) - 1 - J p :=
    mask_xor_eq_sub _ _ (by omega)
  have hz_up : 2 ^ n' ≤ z := by omega
  obtain ⟨hw_lt, hw_cnt⟩ := gray_upper_decomp hz_up hz2
  have hwz : (2 ^ (n' + 1) - 1) ^^^ z = 2 ^ (n' + 1) - 1 - z := mask_xor_eq_sub _ _ hz2
  have hw_ltJ : (2 ^ (n' + 1) - 1) ^^^ z < J p := by omega
  exact hmin _ hw_ltJ (by omega)

/-- The complement of J p in [0, 2^n) has Gray weight p + 1 and lies in the
upper half of the interval. -/
theorem maxB_mem (n p : Nat) (hp : p + 1 ≤ n) :
    count_bits (gray ((2 ^ n - 1) ^^^ J p)) = p + 1 ∧
      2 ^ (n - 1) ≤ ((2 ^ n - 1) ^^^ J p) ∧ ((2 ^ n - 1) ^^^ J p) < 2 ^ n := by
  obtain ⟨n', rfl⟩ : ∃ n', n = n' + 1 := ⟨n - 1, by omega⟩
  have hpow : 2 ^ (n' + 1) = 2 * 2 ^ n' := by rw [Nat.pow_succ]; ring
  have hJ : J p < 2 ^ n' :=
    Nat.lt_of_lt_of_le (J_lt_two_pow p) (Nat.pow_le_pow_right (by omega) (by omega))
  have hM : (2 ^ (n' + 1) - 1) ^^^ J p = 2 ^ (n' + 1) - 1 - J p :=
    mask_xor_eq_sub _ _ (by omega)
  have hup : 2 ^ n' ≤ (2 ^ (n' + 1) - 1) ^^^ J p := by omega
  have hlt : (2 ^ (n' + 1) - 1) ^^^ J p < 2 ^ (n' + 1) := by omega
  obtain ⟨hw_lt, hw_cnt⟩ := gray_upper_decomp hup hlt
  rw [xor_cancel_left] at hw_cnt
  rw [count_bits_gray_J] at hw_cnt
  exact ⟨by omega, by simpa using hup, hlt⟩

/-- J p is the least cursor whose Gray code has popcount p: below it no cursor
has Gray weight p. -/
theorem minB : ∀ p z, z < J p → count_bits (gray z) ≠ p := by
  intro p
  induction p using Nat.strong_induction_on with
  | _ p ih =>
    match p with
    | 0 =>
      intro z hz
      rw [J_zero] at hz
      omega
    | 1 =>
      intro z hz
      rw [J_one] at hz
      have hz0 : z = 0 := by omega
      subst hz0
      simp [gray, count_bits, count_bits_go]
    | p + 2 =>
      intro z hz hcount
      have hpow : 2 ^ (p + 2) = 2 * 2 ^ (p + 1) := by rw [Nat.pow_succ]; ring
      have hJlt : J (p + 2) < 2 ^ (p + 2) := J_lt_two_pow _
      by_cases hzl : z < 2 ^ (p + 1)
      · have h1 : gray z < 2 ^ (p + 1) := gray_lt_two_pow hzl
        have h2 : count_bits (gray z) ≤ p + 1 := count_bits_le_of_lt_two_pow _ _ h1
        omega
      · have hz_up : 2 ^ (p + 1) ≤ z := by omega
        obtain ⟨hw_lt, hw_cnt⟩ := gray_upper_decomp hz_up (by omega)
        rw [show p + 1 + 1 = p + 2 from rfl] at hw_lt hw_cnt
        have hwz : (2 ^ (p + 2) - 1) ^^^ z = 2 ^ (p + 2) - 1 - z := mask_xor_eq_sub _ _ (by omega)
        have hJid : (2 ^ (p + 2) - 1) ^^^ J (p + 2) = J (p + 1) := mask_xor_J (p + 1)
        have hJsub : J (p + 2) ≤ 2 ^ (p + 2) - 1 := by omega
        have hJid' : 2 ^ (p + 2) - 1 - J (p + 2) = J (p + 1) := by
          rw [← hJid, mask_xor_eq_sub _ _ hJlt]
        have hw_gtJ : J (p + 1) < (2 ^ (p + 2) - 1) ^^^ z := by omega
        have hMeq : (2 ^ (p + 1) - 1) ^^^ J p = J (p + 1) := by
          have := mask_xor_J p
          rw [← this, xor_cancel_left]
        have hbound := maxB_bound (p + 1) p (by omega) (ih p (by omega))
        rw [hMeq] at hbound
        exact hbound _ hw_gtJ hw_lt (by omega)

theorem xor_shuffle (a b c d : Nat) : (a ^^^ b) ^^^ (c ^^^ (a ^^^ d)) = c ^^^ (b ^^^ d) := by
  apply Nat.eq_of_testBit_eq
  intro i
  simp only [Nat.testBit_xor]
  cases a.testBit i <;> cases b.testBit i <;> cases c.testBit i <;> cases d.testBit i <;> rfl

theorem gray_eq_zero_iff (x : Nat) : gray x = 0 ↔ x = 0 := by
  constructor
  · intro h
    have h2 := congrArg grayInv h
    rw [grayInv_gray] at h2
    simpa [grayInv] using h2
  · intro h; subst h; rfl

/-- Revolving-door property of the Gray walk: two cursors of the same Gray
weight p with no cursor of weight p strictly between them have Gray codes at
Hamming distance exactly 2. -/
theorem gray_adjacent_two :
    ∀ n x y p, x < y → y < 2 ^ n → count_bits (gray x) = p → count_bits (gray y) = p →
      (∀ z, x < z → z < y → count_bits (gray z) ≠ p) →
      count_bits (gray x ^^^ gray y) = 2 := by
  intro n
  induction n with
  | zero =>
    intro x y p hxy hy _ _ _
    omega
  | succ n ih =>
    intro x y p hxy hy hx_cnt hy_cnt hmid
    have hpow : 2 ^ (n + 1) = 2 * 2 ^ n := by rw [Nat.pow_succ]; ring
    have hp1 : 1 ≤ 2 ^ n := Nat.one_le_two_pow
    by_cases hyl : y < 2 ^ n
    · exact ih x y p hxy hyl hx_cnt hy_cnt hmid
    · by_cases hxl : x < 2 ^ n
      · -- straddling case: x in the lower half, y in the upper half
        have hy_up : 2 ^ n ≤ y := by omega
        obtain ⟨hw_lt, hw_cnt⟩ := gray_upper_decomp hy_up hy
        have hwy : (2 ^ (n + 1) - 1) ^^^ y = 2 ^ (n + 1) - 1 - y := mask_xor_eq_sub _ _ hy
        have hppos : 1 ≤ p := by
          rcases Nat.eq_zero_or_pos p with hp0 | hp
          · exfalso
            have hgx : gray x = 0 := (count_bits_eq_zero_iff _).mp (by omega)
            have hgy : gray y = 0 := (count_bits_eq_zero_iff _).mp (by omega)
            have hx0 : x = 0 := (gray_eq_zero_iff x).mp hgx
            have hy0 : y = 0 := (gray_eq_zero_iff y).mp hgy
            omega
          · exact hp
        obtain ⟨p'', rfl⟩ : ∃ p'', p = p'' + 1 := ⟨p - 1, by omega⟩
        have hple : p'' + 1 ≤ n := by
          have h1 : gray x < 2 ^ n := gray_lt_two_pow hxl
          have := count_bits_le_of_lt_two_pow n _ h1
          omega
        obtain ⟨hM_cnt, hM_up, hM_lt⟩ := maxB_mem n p'' hple
        have hx_le : x ≤ (2 ^ n - 1) ^^^ J p'' := by
          by_contra h
          exact (maxB_bound n p'' hple (minB p'')) x (by omega) hxl hx_cnt
        have hM_le : (2 ^ n - 1) ^^^ J p'' ≤ x := by
          by_contra h
          exact hmid ((2 ^ n - 1) ^^^ J p'') (by omega) (by omega) hM_cnt
        have hxM : x = (2 ^ n - 1) ^^^ J p'' := le_antisymm hx_le hM_le
        have hw_count : count_bits (gray ((2 ^ (n + 1) - 1) ^^^ y)) = p'' := by omega
        rcases Nat.eq_zero_or_pos p'' with hq0 | hqpos
        · -- p = 1: y is the all-ones cursor, x the all-ones cursor of the lower half
          subst hq0
          have hgw : gray ((2 ^ (n + 1) - 1) ^^^ y) = 0 :=
            (count_bits_eq_zero_iff _).mp hw_count
          have hw0 : (2 ^ (n + 1) - 1) ^^^ y = 0 := (gray_eq_zero_iff _).mp hgw
          have hy_eq : y = 2 ^ (n + 1) - 1 := (Nat.xor_eq_zero.mp hw0).symm
          obtain ⟨n'', rfl⟩ : ∃ n'', n = n'' + 1 := ⟨n - 1, by omega⟩
          have hx_eq : x = 2 ^ (n'' + 1) - 1 := by
            rw [hxM, J_zero, Nat.xor_zero]
          rw [hx_eq, hy_eq, gray_two_pow_sub_one,
            show (2 : Nat) ^ (n'' + 1 + 1) - 1 = 2 ^ (n'' + 1 + 1) - 1 from rfl,
            gray_two_pow_sub_one, Nat.xor_comm]
          exact count_bits_two_pow_xor (by omega)
        · obtain ⟨q, rfl⟩ : ∃ q, p'' = q + 1 := ⟨p'' - 1, by omega⟩
          obtain ⟨hM2_cnt, hM2_up, hM2_lt⟩ := maxB_mem n q (by omega)
          have hJq : J q < 2 ^ n :=
            Nat.lt_of_lt_of_le (J_lt_two_pow q) (Nat.pow_le_pow_right (by omega) (by omega))
          have hM2sub : (2 ^ n - 1) ^^^ J q = 2 ^ n - 1 - J q := mask_xor_eq_sub _ _ (by omega)
          have hw_le : (2 ^ (n + 1) - 1) ^^^ y ≤ (2 ^ n - 1) ^^^ J q := by
            by_contra h
            exact (maxB_bound n q (by omega) (minB q)) _ (by omega) hw_lt hw_count
          have hM2_le : (2 ^ n - 1) ^^^ J q ≤ (2 ^ (n + 1) - 1) ^^^ y := by
            by_contra h
            have hzsub : (2 ^ (n + 1) - 1) ^^^ ((2 ^ n - 1) ^^^ J q) =
                2 ^ (n + 1) - 1 - ((2 ^ n - 1) ^^^ J q) := mask_xor_eq_sub _ _ (by omega)
            have hz_up : 2 ^ n ≤ (2 ^ (n + 1) - 1) ^^^ ((2 ^ n - 1) ^^^ J q) := by omega
            obtain ⟨hz_lt2, hz_cnt⟩ := gray_upper_decomp hz_up (by omega)
            rw [xor_cancel_left] at hz_cnt
            exact hmid ((2 ^ (n + 1) - 1) ^^^ ((2 ^ n - 1) ^^^ J q)) (by omega) (by omega)
              (by omega)
          have hwM2 : (2 ^ (n + 1) - 1) ^^^ y = (2 ^ n - 1) ^^^ J q :=
            le_antisymm hw_le hM2_le
          obtain ⟨n'', rfl⟩ : ∃ n'', n = n'' + 1 := ⟨n - 1, by omega⟩
          have hgx : gray x = 2 ^ n'' ^^^ (2 ^ (q + 1) - 1) := by
            rw [hxM, gray_xor, gray_two_pow_sub_one, gray_J]
          have hyw : y = (2 ^ (n'' + 1 + 1) - 1) ^^^ ((2 ^ (n'' + 1) - 1) ^^^ J q) := by
            rw [← hwM2, xor_cancel_left]
          have hgy : gray y = 2 ^ (n'' + 1) ^^^ (2 ^ n'' ^^^ (2 ^ q - 1)) := by
            rw [hyw, gray_xor, gray_two_pow_sub_one, gray_xor, gray_two_pow_sub_one, gray_J]
          rw [hgx, hgy, xor_shuffle]
          have hq2 : 2 ^ q - 1 < 2 ^ (q + 1) := by
            have : 1 ≤ 2 ^ q := Nat.one_le_two_pow
            have hqq : 2 ^ (q + 1) = 2 * 2 ^ q := by rw [Nat.pow_succ]; ring
            omega
          have hsub : (2 ^ (q + 1) - 1) ^^^ (2 ^ q - 1) = 2 ^ q := by
            rw [mask_xor_eq_sub (q + 1) _ hq2]
            have : 1 ≤ 2 ^ q := Nat.one_le_two_pow
            have hqq : 2 ^ (q + 1) = 2 * 2 ^ q := by rw [Nat.pow_succ]; ring
            omega
          rw [hsub]
          exact count_bits_two_pow_xor (by omega)
      · -- both in the upper half: reflect to the lower half
        have hx_up : 2 ^ n ≤ x := by omega
        have hy_up : 2 ^ n ≤ y := by omega
        obtain ⟨hx'_lt, hx'_cnt⟩ := gray_upper_decomp hx_up (by omega)
        obtain ⟨hy'_lt, hy'_cnt⟩ := gray_upper_decomp hy_up hy
        have hxx : (2 ^ (n + 1) - 1) ^^^ x = 2 ^ (n + 1) - 1 - x := mask_xor_eq_sub _ _ (by omega)
        have hyy : (2 ^ (n + 1) - 1) ^^^ y = 2 ^ (n + 1) - 1 - y := mask_xor_eq_sub _ _ hy
        obtain ⟨p', rfl⟩ : ∃ p', p = p' + 1 := ⟨p - 1, by omega⟩
        have hxor : gray ((2 ^ (n + 1) - 1) ^^^ y) ^^^ gray ((2 ^ (n + 1) - 1) ^^^ x) =
            gray x ^^^ gray y := by
          rw [gray_xor, gray_xor, xor_pair_cancel, Nat.xor_comm]
        rw [← hxor]
        refine ih _ _ p' (by omega) hx'_lt (by omega) (by omega) ?_
        intro z' hz1 hz2 hc
        have hz'lt : z' < 2 ^ n := lt_trans hz2 hx'_lt
        have hzz : (2 ^ (n + 1) - 1) ^^^ z' = 2 ^ (n + 1) - 1 - z' :=
          mask_xor_eq_sub _ _ (by omega)
        have hz_up : 2 ^ n ≤ (2 ^ (n + 1) - 1) ^^^ z' := by omega
        obtain ⟨hzm_lt, hzm_cnt⟩ := gray_upper_decomp hz_up (by omega)
        rw [xor_cancel_left] at hzm_cnt
        exact hmid ((2 ^ (n + 1) - 1) ^^^ z') (by omega) (by omega) (by omega)

theorem gray_injective : Function.Injective gray := by
  intro a b h
  have := congrArg grayInv h
  rwa [grayInv_gray, grayInv_gray] at this

theorem gray_map_range_perm (n : Nat) :
    ((List.range (2 ^ n)).map gray).Perm (List.range (2 ^ n)) := by
  apply List.perm_of_nodup_nodup_toFinset_eq
  · exact (List.nodup_range _).map gray_injective
  · exact List.nodup_range _
  · ext a
    simp only [List.mem_toFinset, List.mem_map, List.mem_range]
    constructor
    · rintro ⟨x, hx, rfl⟩
      exact gray_lt_two_pow hx
    · intro ha
      exact ⟨grayInv a, grayInv_lt_two_pow ha, gray_grayInv a⟩

theorem count_gray_weight (n p : Nat) :
    (List.range (2 ^ n)).countP (fun z => count_bits (gray z) == p) =
      (List.range (2 ^ n)).countP (fun g => count_bits g == p) := by
  have h1 := (gray_map_range_perm n).countP_eq (fun g => count_bits g == p)
  rw [List.countP_map] at h1
  exact h1

theorem count_weight_eq_choose :
    ∀ n p, (List.range (2 ^ n)).countP (fun g => count_bits g == p) = Nat.choose n p := by
  intro n
  induction n with
  | zero =>
    intro p
    cases p with
    | zero => rfl
    | succ p => rfl
  | succ n ih =>
    intro p
    have hp1 : 1 ≤ 2 ^ n := Nat.one_le_two_pow
    rw [show (2 : Nat) ^ (n + 1) = 2 ^ n + 2 ^ n from by rw [Nat.pow_succ]; omega,
      List.range_add, List.countP_append, List.countP_map]
    cases p with
    | zero =>
      have hz : (List.range (2 ^ n)).countP
          ((fun g => count_bits g == 0) ∘ (fun x => 2 ^ n + x)) = 0 := by
        rw [List.countP_eq_zero]
        intro g hg
        have hglt := List.mem_range.mp hg
        simp only [Function.comp_apply, beq_iff_eq]
        rw [count_bits_two_pow_add n g hglt]
        omega
      rw [hz, ih 0, Nat.choose_zero_right, Nat.choose_zero_right]
    | succ p =>
      have hcg : (List.range (2 ^ n)).countP
          ((fun g => count_bits g == p + 1) ∘ (fun x => 2 ^ n + x)) =
          (List.range (2 ^ n)).countP (fun g => count_bits g == p) := by
        apply List.countP_congr
        intro g hg
        have hglt := List.mem_range.mp hg
        simp only [Function.comp_apply, beq_iff_eq]
        rw [count_bits_two_pow_add n g hglt]
        omega
      rw [hcg, ih (p + 1), ih p, Nat.choose_succ_succ]
      simp only [Nat.succ_eq_add_one]
      omega

theorem acc_list_length (size pick : Nat) :
    (acc_list size pick).length = Nat.choose size pick := by
  rw [acc_list, ← List.countP_eq_length_filter, count_gray_weight, count_weight_eq_choose]

theorem mem_acc_list {size pick z : Nat} :
    z ∈ acc_list size pick ↔ z < 2 ^ size ∧ count_bits (gray z) = pick := by
  simp [acc_list, List.mem_filter, List.mem_range, And.comm]

theorem acc_list_pairwise (size pick : Nat) : (acc_list size pick).Pairwise (· < ·) :=
  (List.pairwise_lt_range _).filter _

theorem acc_get_mem (size pick : Nat) {i : Nat} (h : i < (acc_list size pick).length) :
    (acc_list size pick)[i] < 2 ^ size ∧ count_bits (gray (acc_list size pick)[i]) = pick :=
  mem_acc_list.mp (List.getElem_mem h)

theorem acc_get_pos (size pick : Nat) (hp : 0 < pick) {i : Nat}
    (h : i < (acc_list size pick).length) : 0 < (acc_list size pick)[i] := by
  rcases Nat.eq_zero_or_pos (acc_list size pick)[i] with h0 | hpos
  · exfalso
    have := (acc_get_mem size pick h).2
    rw [h0] at this
    have hz : count_bits (gray 0) = 0 := rfl
    omega
  · exact hpos

theorem acc_get_lt (size pick : Nat) {i j : Nat} (hij : i < j)
    (hj : j < (acc_list size pick).length) :
    (acc_list size pick)[i] < (acc_list size pick)[j] :=
  List.pairwise_iff_getElem.mp (acc_list_pairwise size pick) i j (by omega) hj hij

theorem acc_gap (size pick : Nat) {i : Nat} (h : i + 1 < (acc_list size pick).length) :
    ∀ z, (acc_list size pick)[i] < z → z < (acc_list size pick)[i + 1] →
      count_bits (gray z) ≠ pick := by
  intro z hz1 hz2 hcnt
  have hzlt : z < 2 ^ size := by
    have := (acc_get_mem size pick h).1
    omega
  have hzmem : z ∈ acc_list size pick := mem_acc_list.mpr ⟨hzlt, hcnt⟩
  obtain ⟨m, hm, hmz⟩ := List.mem_iff_getElem.mp hzmem
  rcases Nat.lt_trichotomy m i with hmi | hmi | hmi
  · have := acc_get_lt size pick hmi (by omega)
    omega
  · subst hmi; omega
  · rcases Nat.lt_or_ge m (i + 1) with hmi2 | hmi2
    · omega
    · rcases Nat.eq_or_lt_of_le hmi2 with hmi3 | hmi3
      · subst hmi3; omega
      · have := acc_get_lt size pick (show i + 1 < m from hmi3) hm
        omega

theorem acc_head_min (size pick : Nat) (h : 0 < (acc_list size pick).length) :
    ∀ z, z < (acc_list size pick)[0] → count_bits (gray z) ≠ pick := by
  intro z hz hcnt
  have hzlt : z < 2 ^ size := by
    have := (acc_get_mem size pick h).1
    omega
  obtain ⟨m, hm, hmz⟩ := List.mem_iff_getElem.mp (mem_acc_list.mpr ⟨hzlt, hcnt⟩)
  rcases Nat.eq_zero_or_pos m with hm0 | hm0
  · subst hm0; omega
  · have := acc_get_lt size pick hm0 hm
    omega

theorem acc_last_max (size pick : Nat) (h : 0 < (acc_list size pick).length) :
    ∀ z, (acc_list size pick)[(acc_list size pick).length - 1] < z → z < 2 ^ size →
      count_bits (gray z) ≠ pick := by
  intro z hz1 hz2 hcnt
  obtain ⟨m, hm, hmz⟩ := List.mem_iff_getElem.mp (mem_acc_list.mpr ⟨hz2, hcnt⟩)
  rcases Nat.lt_or_ge m ((acc_list size pick).length - 1) with hmi | hmi
  · have := acc_get_lt size pick hmi (by omega)
    omega
  · have hmeq : m = (acc_list size pick).length - 1 := by omega
    subst hmeq
    omega

theorem fwd_loop_none (size pick : Nat) :
    ∀ fuel j, j + fuel = 2 ^ size →
      (∀ z, j < z → z < 2 ^ size → count_bits (gray z) ≠ pick) →
      fwd_loop size pick fuel j = none := by
  intro fuel
  induction fuel with
  | zero => intro j _ _; rfl
  | succ fuel ih =>
    intro j h1 h2
    rw [fwd_loop]
    by_cases hb : j + 1 = 2 ^ size
    · rw [if_pos hb]
    · rw [if_neg hb, if_neg (h2 (j + 1) (by omega) (by omega))]
      exact ih (j + 1) (by omega) (fun z hz1 hz2 => h2 z (by omega) hz2)

theorem fwd_loop_some (size pick : Nat) :
    ∀ fuel j x, j + fuel = 2 ^ size → j < x → x < 2 ^ size → count_bits (gray x) = pick →
      (∀ z, j < z → z < x → count_bits (gray z) ≠ pick) →
      fwd_loop size pick fuel j = some x := by
  intro fuel
  induction fuel with
  | zero => intro j x h1 h2 h3 _ _; omega
  | succ fuel ih =>
    intro j x h1 h2 h3 h4 h5
    rw [fwd_loop]
    rw [if_neg (show ¬ j + 1 = 2 ^ size from by omega)]
    by_cases hx1 : x = j + 1
    · subst hx1
      rw [if_pos h4]
    · rw [if_neg (h5 (j + 1) (by omega) (by omega))]
      exact ih (j + 1) x (by omega) (by omega) h3 h4 (fun z hz1 hz2 => h5 z (by omega) hz2)

theorem fwd_search_none (size pick j : Nat) (hj : j < 2 ^ size)
    (h : ∀ z, j < z → z < 2 ^ size → count_bits (gray z) ≠ pick) :
    fwd_search size pick j = none :=
  fwd_loop_none size pick _ j (by omega) h

theorem fwd_search_some (size pick j x : Nat) (hjx : j < x) (hx : x < 2 ^ size)
    (hcnt : count_bits (gray x) = pick)
    (h : ∀ z, j < z → z < x → count_bits (gray z) ≠ pick) :
    fwd_search size pick j = some x :=
  fwd_loop_some size pick _ j x (by omega) hjx hx hcnt h

theorem rev_loop_none (size pick : Nat) :
    ∀ fuel j, j ≤ fuel → (∀ z, 0 < z → z < j → count_bits (gray z) ≠ pick) →
      rev_loop size pick fuel j = none := by
  intro fuel
  induction fuel with
  | zero => intro j _ _; rfl
  | succ fuel ih =>
    intro j h1 h2
    rw [rev_loop]
    by_cases hb : j - 1 = 0
    · rw [if_pos hb]
    · rw [if_neg hb, if_neg (h2 (j - 1) (by omega) (by omega))]
      exact ih (j - 1) (by omega) (fun z hz1 hz2 => h2 z hz1 (by omega))

theorem rev_loop_some (size pick : Nat) :
    ∀ fuel j x, j ≤ fuel → 0 < x → x < j → count_bits (gray x) = pick →
      (∀ z, x < z → z < j → count_bits (gray z) ≠ pick) →
      rev_loop size pick fuel j = some x := by
  intro fuel
  induction fuel with
  | zero => intro j x h1 h2 h3 _ _; omega
  | succ fuel ih =>
    intro j x h1 h2 h3 h4 h5
    rw [rev_loop]
    rw [if_neg (show ¬ j - 1 = 0 from by omega)]
    by_cases hx1 : x = j - 1
    · rw [if_pos (by rw [← hx1]; exact h4)]
      rw [hx1]
    · rw [if_neg (h5 (j - 1) (by omega) (by omega))]
      exact ih (j - 1) x (by omega) h2 (by omega) h4 (fun z hz1 hz2 => h5 z hz1 (by omega))

theorem rev_search_none (size pick j : Nat)
    (h : ∀ z, 0 < z → z < j → count_bits (gray z) ≠ pick) :
    rev_search size pick j = none :=
  rev_loop_none size pick j j (Nat.le_refl j) h

theorem rev_search_some (size pick j x : Nat) (hx0 : 0 < x) (hxj : x < j)
    (hcnt : count_bits (gray x) = pick)
    (h : ∀ z, x < z → z < j → count_bits (gray z) ≠ pick) :
    rev_search size pick j = some x :=
  rev_loop_some size pick j j x (Nat.le_refl j) hx0 hxj hcnt h

/-! Unfolding lemmas for the four outcomes of gray_generator_t::next, and the
full trajectory of the generator: forward along acc_list, flip, backward,
flip, with period twice the list length. -/

theorem gray_next_fwd_some {g : gray_generator_t} {x : Nat} (hr : g.reversed_ = false)
    (hs : fwd_search g.size_ g.pick_ g.index_ = some x) :
    gray_next g = { g with index_ := x } := by
  unfold gray_next
  rw [hr, if_neg Bool.false_ne_true, hs]

theorem gray_next_fwd_none {g : gray_generator_t} (hr : g.reversed_ = false)
    (hs : fwd_search g.size_ g.pick_ g.index_ = none) :
    gray_next g = { g with reversed_ := true } := by
  unfold gray_next
  rw [hr, if_neg Bool.false_ne_true, hs]

theorem gray_next_rev_some {g : gray_generator_t} {x : Nat} (hr : g.reversed_ = true)
    (hs : rev_search g.size_ g.pick_ g.index_ = some x) :
    gray_next g = { g with index_ := x } := by
  unfold gray_next
  rw [hr, if_pos rfl, hs]

theorem gray_next_rev_none {g : gray_generator_t} (hr : g.reversed_ = true)
    (hs : rev_search g.size_ g.pick_ g.index_ = none) :
    gray_next g = { g with reversed_ := false } := by
  unfold gray_next
  rw [hr, if_pos rfl, hs]

theorem gstate_succ_eq (size pick n : Nat) :
    gstate size pick (n + 1) = gray_next (gstate size pick n) :=
  Function.iterate_succ_apply' _ _ _

theorem acc_get_congr {size pick : Nat} {a b : Nat} (hab : a = b)
    (hb : b < (acc_list size pick).length) :
    (acc_list size pick)[a] = (acc_list size pick)[b] := by
  subst hab
  rfl

theorem gstate_fwd (size pick : Nat) (hp : 0 < pick) :
    ∀ i, (h : i < (acc_list size pick).length) →
      gstate size pick i =
        { size_ := size, pick_ := pick, reversed_ := false,
          index_ := (acc_list size pick)[i],
          combinations_ := fact size / (fact pick * fact (size - pick) % u32) } := by
  intro i
  induction i with
  | zero =>
    intro h
    have hsearch : fwd_search size pick 0 = some (acc_list size pick)[0] :=
      fwd_search_some _ _ _ _ (acc_get_pos size pick hp h) (acc_get_mem size pick h).1
        (acc_get_mem size pick h).2 (fun z _ hz2 => acc_head_min size pick h z hz2)
    show gray_generator_mk size pick = _
    rw [gray_generator_mk, gray_next_fwd_some rfl hsearch]
  | succ i ih =>
    intro h
    have hi : i < (acc_list size pick).length := by omega
    rw [gstate_succ_eq, ih hi]
    have hsearch : fwd_search size pick (acc_list size pick)[i] =
        some (acc_list size pick)[i + 1] :=
      fwd_search_some _ _ _ _ (acc_get_lt size pick (by omega) h) (acc_get_mem size pick h).1
        (acc_get_mem size pick h).2 (acc_gap size pick h)
    rw [gray_next_fwd_some rfl hsearch]

theorem gstate_flip_top (size pick : Nat) (hp : 0 < pick)
    (hk : 0 < (acc_list size pick).length) :
    gstate size pick (acc_list size pick).length =
      { size_ := size, pick_ := pick, reversed_ := true,
        index_ := (acc_list size pick)[(acc_list size pick).length - 1],
        combinations_ := fact size / (fact pick * fact (size - pick) % u32) } := by
  have hlen : (acc_list size pick).length = ((acc_list size pick).length - 1) + 1 := by omega
  rw [show gstate size pick (acc_list size pick).length =
      gstate size pick (((acc_list size pick).length - 1) + 1) from by rw [← hlen],
    gstate_succ_eq, gstate_fwd size pick hp _ (by omega)]
  have hsearch : fwd_search size pick (acc_list size pick)[(acc_list size pick).length - 1] =
      none :=
    fwd_search_none _ _ _ (acc_get_mem size pick (by omega)).1
      (acc_last_max size pick hk)
  rw [gray_next_fwd_none rfl hsearch]

theorem gstate_rev_step (size pick : Nat) (hp : 0 < pick) {a : Nat}
    (ha : a + 1 < (acc_list size pick).length) :
    gray_next
      { size_ := size, pick_ := pick, reversed_ := true,
        index_ := (acc_list size pick)[a + 1],
        combinations_ := fact size / (fact pick * fact (size - pick) % u32) } =
      { size_ := size, pick_ := pick, reversed_ := true,
        index_ := (acc_list size pick)[a],
        combinations_ := fact size / (fact pick * fact (size - pick) % u32) } := by
  have hsearch : rev_search size pick (acc_list size pick)[a + 1] =
      some (acc_list size pick)[a] :=
    rev_search_some _ _ _ _ (acc_get_pos size pick hp (by omega))
      (acc_get_lt size pick (by omega) ha) (acc_get_mem size pick (by omega)).2
      (acc_gap size pick ha)
  rw [gray_next_rev_some rfl hsearch]

theorem gstate_rev (size pick : Nat) (hp : 0 < pick)
    (hk : 0 < (acc_list size pick).length) :
    ∀ i, i ≤ (acc_list size pick).length - 1 →
      gstate size pick ((acc_list size pick).length + i) =
        { size_ := size, pick_ := pick, reversed_ := true,
          index_ := (acc_list size pick)[(acc_list size pick).length - 1 - i],
          combinations_ := fact size / (fact pick * fact (size - pick) % u32) } := by
  intro i
  induction i with
  | zero =>
    intro _
    rw [Nat.add_zero, acc_get_congr (show (acc_list size pick).length - 1 - 0 =
      (acc_list size pick).length - 1 from by omega) (by omega)]
    exact gstate_flip_top size pick hp hk
  | succ i ih =>
    intro hile
    rw [show (acc_list size pick).length + (i + 1) = ((acc_list size pick).length + i) + 1
      from rfl, gstate_succ_eq, ih (by omega)]
    have hidx : (acc_list size pick).length - 1 - i =
        ((acc_list size pick).length - 1 - (i + 1)) + 1 := by omega
    rw [acc_get_congr hidx (by omega), gstate_rev_step size pick hp (by omega)]

theorem gstate_period (size pick : Nat) (hp : 0 < pick)
    (hk : 0 < (acc_list size pick).length) :
    ∀ n, gstate size pick (n + 2 * (acc_list size pick).length) = gstate size pick n := by
  have hbase : gstate size pick (2 * (acc_list size pick).length) = gstate size pick 0 := by
    have h2k : 2 * (acc_list size pick).length =
        ((acc_list size pick).length + ((acc_list size pick).length - 1)) + 1 := by omega
    rw [h2k, gstate_succ_eq, gstate_rev size pick hp hk _ (by omega)]
    have hidx : (acc_list size pick).length - 1 - ((acc_list size pick).length - 1) = 0 := by
      omega
    rw [acc_get_congr hidx (by omega)]
    have hsearch : rev_search size pick (acc_list size pick)[0] = none :=
      rev_search_none _ _ _ (fun z _ hz2 => acc_head_min size pick hk z hz2)
    rw [gray_next_rev_none rfl hsearch]
    rw [gstate_fwd size pick hp 0 (by omega)]
  intro n
  induction n with
  | zero => simpa using hbase
  | succ n ih =>
    rw [show n + 1 + 2 * (acc_list size pick).length =
      (n + 2 * (acc_list size pick).length) + 1 from by omega, gstate_succ_eq, ih,
      ← gstate_succ_eq]

theorem gstate_add_cycles (size pick : Nat) (hp : 0 < pick)
    (hk : 0 < (acc_list size pick).length) :
    ∀ q r, gstate size pick (2 * (acc_list size pick).length * q + r) = gstate size pick r := by
  intro q
  induction q with
  | zero => intro r; simp
  | succ q ih =>
    intro r
    rw [show 2 * (acc_list size pick).length * (q + 1) + r =
      (2 * (acc_list size pick).length * q + r) + 2 * (acc_list size pick).length from by ring,
      gstate_period size pick hp hk, ih]

/-! Exact value of the fact helper and of the combinations_ member. -/

theorem fact_go_eq : ∀ x f, f < u32 → fact_go x f = f * Nat.factorial x % u32 := by
  intro x
  induction x with
  | zero =>
    intro f hf
    show f = f * 1 % u32
    rw [Nat.mul_one, Nat.mod_eq_of_lt hf]
  | succ x ih =>
    intro f hf
    match x with
    | 0 =>
      show f = f * 1 % u32
      rw [Nat.mul_one, Nat.mod_eq_of_lt hf]
    | x + 1 =>
      show fact_go (x + 1) (f * (x + 2) % u32) = _
      rw [ih _ (Nat.mod_lt _ (by rw [u32]; omega)), Nat.mod_mul_mod]
      conv_rhs => rw [Nat.factorial_succ]
      congr 1
      ring

theorem fact_eq (x : Nat) : fact x = Nat.factorial x % u32 := by
  rw [fact, fact_go_eq x 1 (by rw [u32]; omega), Nat.one_mul]

theorem fact_eq_factorial {x : Nat} (h : x ≤ 12) : fact x = Nat.factorial x := by
  rw [fact_eq, Nat.mod_eq_of_lt]
  calc Nat.factorial x ≤ Nat.factorial 12 := Nat.factorial_le h
    _ < u32 := by decide

theorem combinations_eq_choose {size pick : Nat} (hps : pick ≤ size) (hsz : size ≤ 12) :
    fact size / (fact pick * fact (size - pick) % u32) = Nat.choose size pick := by
  rw [fact_eq_factorial hsz, fact_eq_factorial (by omega), fact_eq_factorial (by omega)]
  have hdvd := Nat.choose_mul_factorial_mul_factorial hps
  have hpos1 : 0 < Nat.factorial pick := Nat.factorial_pos _
  have hpos2 : 0 < Nat.factorial (size - pick) := Nat.factorial_pos _
  have hchpos : 0 < Nat.choose size pick := Nat.choose_pos hps
  have hle : Nat.factorial pick * Nat.factorial (size - pick) ≤ Nat.factorial size := by
    calc Nat.factorial pick * Nat.factorial (size - pick) ≤
        Nat.choose size pick * Nat.factorial pick * Nat.factorial (size - pick) := by
          have h1 : 1 * (Nat.factorial pick * Nat.factorial (size - pick)) ≤
              Nat.choose size pick * (Nat.factorial pick * Nat.factorial (size - pick)) :=
            Nat.mul_le_mul_right _ hchpos
          calc Nat.factorial pick * Nat.factorial (size - pick) =
              1 * (Nat.factorial pick * Nat.factorial (size - pick)) := by ring
            _ ≤ Nat.choose size pick * (Nat.factorial pick * Nat.factorial (size - pick)) := h1
            _ = Nat.choose size pick * Nat.factorial pick * Nat.factorial (size - pick) := by
                ring
      _ = Nat.factorial size := hdvd
  have hfs : Nat.factorial size < u32 := by
    calc Nat.factorial size ≤ Nat.factorial 12 := Nat.factorial_le hsz
      _ < u32 := by decide
  rw [Nat.mod_eq_of_lt (by omega)]
  rw [Nat.choose_eq_factorial_div_factorial hps]

theorem acc_list_pos (size pick : Nat) (hp : 0 < pick) (hps : pick ≤ size) :
    0 < (acc_list size pick).length := by
  rw [acc_list_length]
  exact Nat.choose_pos hps

/-- C8 counterexample: for size 4 and pick 3 the generator does not produce
the forward order 0b0111, 0b1011, 0b1101, 0b1110 stated in the spec; its
second accepted value is 0b1101, not 0b1011. -/
theorem generator_4_3_order_not_as_specified :
    ¬ (List.range 4).map (gobs 4 3) = [0b0111, 0b1011, 0b1101, 0b1110] := by decide

/-- C8 (amended): for size 4 and pick 3 the forward phase produces the
accepted values 0b0111, 0b1101, 0b1110, 0b1011 (each of popcount 3 and with
consecutive Hamming distance 2), the reverse phase then accepts 0b1110,
0b1101, 0b0111, and the cycle repeats: the state after the 8 calls of one
full forward-plus-reverse sweep equals the state after construction. -/
theorem generator_4_3_order :
    (List.range 4).map (gobs 4 3) = [0b0111, 0b1101, 0b1110, 0b1011] ∧
      (∀ v ∈ (List.range 4).map (gobs 4 3), count_bits v = 3) ∧
      count_bits (gobs 4 3 0 ^^^ gobs 4 3 1) = 2 ∧
      count_bits (gobs 4 3 1 ^^^ gobs 4 3 2) = 2 ∧
      count_bits (gobs 4 3 2 ^^^ gobs 4 3 3) = 2 ∧
      (List.range 3).map (fun i => gobs 4 3 (4 + 1 + i)) = [0b1110, 0b1101, 0b0111] ∧
      gstate 4 3 8 = gstate 4 3 0 := by decide

/-- C9 counterexample: constructing the generator with pick = 0 and size = 4
does not fail: the constructor runs to completion and returns a fully formed
degenerate state (the initial next() accepts nothing, flips the direction
flag and leaves the cursor at 0). -/
theorem generator_mk_pick_zero_returns :
    gray_generator_mk 4 0 =
      { size_ := 4, pick_ := 0, reversed_ := true, index_ := 0, combinations_ := 1 } := by
  decide

/-- C9 (amended): the constructor performs no parameter validation and cannot
fail.  For pick = 0 with 0 < size (and size within the 32-bit factorial
range), the constructor's initial next() call accepts no cursor, so the
returned generator has index 0, the reversed flag set, combinations_ = 1,
and value() = 0 whose popcount is 0; no rejection of the configuration
occurs. -/
theorem generator_mk_pick_zero (size : Nat) (h0 : 0 < size) (hsz : size ≤ 12) :
    gray_generator_mk size 0 =
      { size_ := size, pick_ := 0, reversed_ := true, index_ := 0, combinations_ := 1 } ∧
      (gray_generator_mk size 0).value = 0 := by
  have hsearch : fwd_search size 0 0 = none := by
    apply fwd_search_none size 0 0 (Nat.two_pow_pos size)
    intro z hz1 _ hcnt
    have hg : gray z = 0 := (count_bits_eq_zero_iff _).mp hcnt
    have hz0 : z = 0 := (gray_eq_zero_iff z).mp hg
    omega
  have hcomb : fact size / (fact 0 * fact (size - 0) % u32) = 1 := by
    have hfs : fact size = Nat.factorial size := fact_eq_factorial hsz
    have hlt : Nat.factorial size < u32 := by
      calc Nat.factorial size ≤ Nat.factorial 12 := Nat.factorial_le hsz
        _ < u32 := by decide
    rw [show size - 0 = size from rfl, show fact 0 = 1 from rfl, Nat.one_mul, hfs,
      Nat.mod_eq_of_lt hlt, Nat.div_self (Nat.factorial_pos _)]
  constructor
  · rw [gray_generator_mk, gray_next_fwd_none rfl hsearch, hcomb]
  · rw [gray_generator_mk, gray_next_fwd_none rfl hsearch]
    simp [gray_generator_t.value, gray]

/-- C3: with 0 < pick < size and size within the range where the 32-bit
factorial arithmetic is exact, the forward phase of the generator (the
constructor's accept plus the accepting next() calls before the first
direction flip) produces exactly C(size, pick) pairwise distinct values, each
of popcount pick, and the combinations_ member returned by combinations()
equals that same count. -/
theorem generator_forward_phase_count (size pick : Nat) (hp : 0 < pick) (hps : pick < size)
    (hsz : size ≤ 12) :
    ((List.range ((acc_list size pick).length)).map (gobs size pick)).length =
        Nat.choose size pick ∧
      ((List.range ((acc_list size pick).length)).map (gobs size pick)).Nodup ∧
      (∀ v ∈ (List.range ((acc_list size pick).length)).map (gobs size pick),
        count_bits v = pick) ∧
      (gstate size pick 0).combinations_ = Nat.choose size pick := by
  have hk : 0 < (acc_list size pick).length := acc_list_pos size pick hp (by omega)
  have hlist : (List.range ((acc_list size pick).length)).map (gobs size pick) =
      (acc_list size pick).map gray := by
    apply List.ext_getElem
    · simp
    · intro i h1 h2
      simp only [List.getElem_map, List.getElem_range]
      have hi : i < (acc_list size pick).length := by simpa using h2
      rw [gobs, gstate_fwd size pick hp i hi]
      rfl
  refine ⟨?_, ?_, ?_, ?_⟩
  · rw [hlist, List.length_map, acc_list_length]
  · rw [hlist]
    exact List.Nodup.map gray_injective ((acc_list_pairwise size pick).imp Nat.ne_of_lt)
  · rw [hlist]
    intro v hv
    obtain ⟨z, hz, rfl⟩ := List.mem_map.mp hv
    exact (mem_acc_list.mp hz).2
  · rw [gstate_fwd size pick hp 0 hk]
    exact combinations_eq_choose (by omega) hsz

/-- Witness for generator_forward_phase_count at size 4, pick 3. -/
theorem generator_forward_phase_count_witness :
    (0 < 3 ∧ 3 < 4 ∧ 4 ≤ 12) ∧
      (((List.range ((acc_list 4 3).length)).map (gobs 4 3)).length = Nat.choose 4 3 ∧
        ((List.range ((acc_list 4 3).length)).map (gobs 4 3)).Nodup ∧
        (∀ v ∈ (List.range ((acc_list 4 3).length)).map (gobs 4 3), count_bits v = 3) ∧
        (gstate 4 3 0).combinations_ = Nat.choose 4 3) :=
  ⟨by decide, generator_forward_phase_count 4 3 (by decide) (by decide) (by decide)⟩

/-- C5 counterexample: for size 4, pick 3 the reverse phase accepts only the
three values 0b1110, 0b1101, 0b0111 — it never re-accepts the last forward
value 0b1011, which is only re-observed at the direction flip — so the list
of reverse-phase accepted values is not the reverse of the forward-phase
accepted list. -/
theorem generator_reverse_phase_not_full_set :
    ¬ ((List.range ((acc_list 4 3).length - 1)).map
        (fun i => gobs 4 3 ((acc_list 4 3).length + 1 + i)) =
      ((List.range ((acc_list 4 3).length)).map (gobs 4 3)).reverse) := by decide

/-- C5 (amended): after the forward phase completes, the reverse phase
accepts exactly the forward-phase values other than the final one, in
reverse order; together with the flip calls this makes the whole state
trajectory — and hence the observed value() sequence — periodic with period
2 * C(size, pick). -/
theorem generator_reverse_phase (size pick : Nat) (hp : 0 < pick) (hps : pick < size) :
    (List.range ((acc_list size pick).length - 1)).map
        (fun i => gobs size pick ((acc_list size pick).length + 1 + i)) =
      (((List.range ((acc_list size pick).length)).map (gobs size pick)).dropLast).reverse ∧
      (∀ n, gstate size pick (n + 2 * (acc_list size pick).length) = gstate size pick n) ∧
      (∀ n, gobs size pick (n + 2 * (acc_list size pick).length) = gobs size pick n) := by
  have hk : 0 < (acc_list size pick).length := acc_list_pos size pick hp (by omega)
  refine ⟨?_, gstate_period size pick hp hk, ?_⟩
  · apply List.ext_getElem
    · simp
    · intro i h1 h2
      have hi : i < (acc_list size pick).length - 1 := by simpa using h1
      rw [List.getElem_reverse]
      simp only [List.getElem_map, List.getElem_range, List.getElem_dropLast,
        List.length_dropLast, List.length_map, List.length_range]
      rw [gobs, gobs, show (acc_list size pick).length + 1 + i =
        (acc_list size pick).length + (1 + i) from by omega,
        gstate_rev size pick hp hk (1 + i) (by omega),
        gstate_fwd size pick hp ((acc_list size pick).length - 1 - 1 - i) (by omega)]
      show gray _ = gray _
      rw [acc_get_congr (show (acc_list size pick).length - 1 - (1 + i) =
        (acc_list size pick).length - 1 - 1 - i from by omega) (by omega)]
  · intro n
    rw [gobs, gobs, gstate_period size pick hp hk n]

/-- Witness for generator_reverse_phase at size 4, pick 3. -/
theorem generator_reverse_phase_witness :
    (0 < 3 ∧ 3 < 4) ∧
      ((List.range ((acc_list 4 3).length - 1)).map
          (fun i => gobs 4 3 ((acc_list 4 3).length + 1 + i)) =
        (((List.range ((acc_list 4 3).length)).map (gobs 4 3)).dropLast).reverse ∧
        (∀ n, gstate 4 3 (n + 2 * (acc_list 4 3).length) = gstate 4 3 n) ∧
        (∀ n, gobs 4 3 (n + 2 * (acc_list 4 3).length) = gobs 4 3 n)) :=
  ⟨by decide, generator_reverse_phase 4 3 (by decide) (by decide)⟩

/-- C10: the next() call that reaches a boundary of the cursor range only
flips the direction flag and keeps the stored cursor, so value() is the same
before and after that call: in every cycle the top endpoint is observed both
at observation index k - 1 (its accept) and at index k (the flip), and the
bottom endpoint both at index 2k - 1 and at index 2k, where k is the number
of accepted combinations. -/
theorem generator_flip_keeps_value (size pick : Nat) (hp : 0 < pick) (hps : pick < size)
    (m : Nat) :
    gstate size pick
        (2 * (acc_list size pick).length * m + (acc_list size pick).length) =
      { gstate size pick
          (2 * (acc_list size pick).length * m + (acc_list size pick).length - 1) with
        reversed_ := true } ∧
      gobs size pick (2 * (acc_list size pick).length * m + (acc_list size pick).length) =
        gobs size pick
          (2 * (acc_list size pick).length * m + (acc_list size pick).length - 1) ∧
      gstate size pick
          (2 * (acc_list size pick).length * m + 2 * (acc_list size pick).length) =
        { gstate size pick
            (2 * (acc_list size pick).length * m + 2 * (acc_list size pick).length - 1) with
          reversed_ := false } ∧
      gobs size pick
          (2 * (acc_list size pick).length * m + 2 * (acc_list size pick).length) =
        gobs size pick
          (2 * (acc_list size pick).length * m + 2 * (acc_list size pick).length - 1) := by
  have hk : 0 < (acc_list size pick).length := acc_list_pos size pick hp (by omega)
  have e1 : 2 * (acc_list size pick).length * m + (acc_list size pick).length - 1 =
      2 * (acc_list size pick).length * m + ((acc_list size pick).length - 1) := by omega
  have e2 : 2 * (acc_list size pick).length * m + 2 * (acc_list size pick).length =
      2 * (acc_list size pick).length * (m + 1) + 0 := by ring
  have e3 : 2 * (acc_list size pick).length * m + 2 * (acc_list size pick).length - 1 =
      2 * (acc_list size pick).length * m +
        ((acc_list size pick).length + ((acc_list size pick).length - 1)) := by omega
  have htop := gstate_flip_top size pick hp hk
  have hfwd_last := gstate_fwd size pick hp ((acc_list size pick).length - 1) (by omega)
  have hfwd0 := gstate_fwd size pick hp 0 hk
  have hrev_last := gstate_rev size pick hp hk ((acc_list size pick).length - 1) (by omega)
  refine ⟨?_, ?_, ?_, ?_⟩
  · rw [gstate_add_cycles size pick hp hk, e1, gstate_add_cycles size pick hp hk, htop,
      hfwd_last]
  · rw [gobs, gobs, gstate_add_cycles size pick hp hk, e1,
      gstate_add_cycles size pick hp hk, htop, hfwd_last]
    rfl
  · rw [e3, e2, gstate_add_cycles size pick hp hk, gstate_add_cycles size pick hp hk,
      hrev_last, hfwd0,
      acc_get_congr (show (acc_list size pick).length - 1 - ((acc_list size pick).length - 1)
        = 0 from by omega) (by omega)]
  · rw [gobs, gobs, e3, e2, gstate_add_cycles size pick hp hk,
      gstate_add_cycles size pick hp hk, hrev_last, hfwd0,
      acc_get_congr (show (acc_list size pick).length - 1 - ((acc_list size pick).length - 1)
        = 0 from by omega) (by omega)]
    rfl

/-- Witness for generator_flip_keeps_value at size 4, pick 3, cycle 0. -/
theorem generator_flip_keeps_value_witness :
    (0 < 3 ∧ 3 < 4) ∧
      (gstate 4 3 (2 * (acc_list 4 3).length * 0 + (acc_list 4 3).length) =
        { gstate 4 3 (2 * (acc_list 4 3).length * 0 + (acc_list 4 3).length - 1) with
          reversed_ := true } ∧
        gobs 4 3 (2 * (acc_list 4 3).length * 0 + (acc_list 4 3).length) =
          gobs 4 3 (2 * (acc_list 4 3).length * 0 + (acc_list 4 3).length - 1) ∧
        gstate 4 3 (2 * (acc_list 4 3).length * 0 + 2 * (acc_list 4 3).length) =
          { gstate 4 3 (2 * (acc_list 4 3).length * 0 + 2 * (acc_list 4 3).length - 1) with
            reversed_ := false } ∧
        gobs 4 3 (2 * (acc_list 4 3).length * 0 + 2 * (acc_list 4 3).length) =
          gobs 4 3 (2 * (acc_list 4 3).length * 0 + 2 * (acc_list 4 3).length - 1)) :=
  ⟨by decide, generator_flip_keeps_value 4 3 (by decide) (by decide) 0⟩

/-! Positions of accepted observations and Hamming distance between
consecutive accepted values, for claim C4. -/

theorem acc_list_two_le (size pick : Nat) (hp : 0 < pick) (hps : pick < size) :
    2 ≤ (acc_list size pick).length := by
  obtain ⟨p'', rfl⟩ : ∃ p'', pick = p'' + 1 := ⟨pick - 1, by omega⟩
  have hJmem : J (p'' + 1) ∈ acc_list size (p'' + 1) := by
    apply mem_acc_list.mpr
    refine ⟨?_, count_bits_gray_J _⟩
    exact Nat.lt_of_lt_of_le (J_lt_two_pow _) (Nat.pow_le_pow_right (by omega) (by omega))
  obtain ⟨hM_cnt, hM_up, hM_lt⟩ := maxB_mem size p'' (by omega)
  have hMmem : (2 ^ size - 1) ^^^ J p'' ∈ acc_list size (p'' + 1) :=
    mem_acc_list.mpr ⟨hM_lt, hM_cnt⟩
  have hne : J (p'' + 1) < (2 ^ size - 1) ^^^ J p'' := by
    have h1 : J (p'' + 1) < 2 ^ (p'' + 1) := J_lt_two_pow _
    have h2 : (2 : Nat) ^ (p'' + 1) ≤ 2 ^ (size - 1) := Nat.pow_le_pow_right (by omega) (by omega)
    omega
  obtain ⟨i, hi, hiv⟩ := List.mem_iff_getElem.mp hJmem
  obtain ⟨j, hj, hjv⟩ := List.mem_iff_getElem.mp hMmem
  have hij : i ≠ j := by
    intro h
    subst h
    rw [hiv] at hjv
    omega
  omega

theorem acc_adjacent_distance (size pick : Nat) {i : Nat}
    (h : i + 1 < (acc_list size pick).length) :
    count_bits (gray (acc_list size pick)[i] ^^^ gray (acc_list size pick)[i + 1]) = 2 :=
  gray_adjacent_two size _ _ pick (acc_get_lt size pick (by omega) h)
    (acc_get_mem size pick h).1 (acc_get_mem size pick (by omega)).2
    (acc_get_mem size pick h).2 (acc_gap size pick h)

theorem acc_adjacent_distance_rev (size pick : Nat) {i : Nat}
    (h : i + 1 < (acc_list size pick).length) :
    count_bits (gray (acc_list size pick)[i + 1] ^^^ gray (acc_list size pick)[i]) = 2 := by
  rw [Nat.xor_comm]
  exact acc_adjacent_distance size pick h

theorem gstate_mod (size pick : Nat) (hp : 0 < pick) (hk : 0 < (acc_list size pick).length)
    (o : Nat) :
    gstate size pick o = gstate size pick (o % (2 * (acc_list size pick).length)) := by
  conv_lhs => rw [← Nat.div_add_mod o (2 * (acc_list size pick).length)]
  rw [gstate_add_cycles size pick hp hk]

theorem gindex_fwd_pos (size pick : Nat) (hp : 0 < pick)
    (hk : 0 < (acc_list size pick).length) {o : Nat}
    (h : o % (2 * (acc_list size pick).length) < (acc_list size pick).length) :
    (gstate size pick o).index_ =
      (acc_list size pick)[o % (2 * (acc_list size pick).length)] := by
  rw [gstate_mod size pick hp hk, gstate_fwd size pick hp _ h]

theorem gindex_rev_pos (size pick : Nat) (hp : 0 < pick)
    (hk : 0 < (acc_list size pick).length) {o : Nat}
    (h : (acc_list size pick).length ≤ o % (2 * (acc_list size pick).length)) :
    (gstate size pick o).index_ =
      (acc_list size pick)[2 * (acc_list size pick).length - 1 -
        o % (2 * (acc_list size pick).length)] := by
  have h2 : o % (2 * (acc_list size pick).length) < 2 * (acc_list size pick).length :=
    Nat.mod_lt _ (by omega)
  have hsplit : o % (2 * (acc_list size pick).length) =
      (acc_list size pick).length + (o % (2 * (acc_list size pick).length) -
        (acc_list size pick).length) := by omega
  rw [gstate_mod size pick hp hk]
  conv_lhs => rw [hsplit]
  rw [gstate_rev size pick hp hk _ (by omega)]
  exact acc_get_congr (by omega) (by omega)

theorem mod_succ_eq (o m : Nat) (hm : 1 < m) : (o + 1) % m = (o % m + 1) % m := by
  conv_lhs => rw [Nat.add_mod]
  rw [Nat.mod_eq_of_lt hm]

theorem acc_eq_getElem (size pick : Nat) {i : Nat} (h : i < (acc_list size pick).length) :
    acc size pick i = (acc_list size pick)[i] :=
  List.getD_eq_getElem _ _ h

theorem acc_popcount (size pick : Nat) {i : Nat} (h : i < (acc_list size pick).length) :
    count_bits (gray (acc size pick i)) = pick := by
  rw [acc_eq_getElem size pick h]
  exact (acc_get_mem size pick h).2

theorem acc_dist_succ (size pick : Nat) {i j : Nat} (hij : j = i + 1)
    (hj : j < (acc_list size pick).length) :
    count_bits (gray (acc size pick i) ^^^ gray (acc size pick j)) = 2 := by
  subst hij
  rw [acc_eq_getElem size pick hj, acc_eq_getElem size pick (Nat.lt_of_succ_lt hj)]
  exact acc_adjacent_distance size pick hj

theorem acc_dist_pred (size pick : Nat) {i j : Nat} (hij : i = j + 1)
    (hi : i < (acc_list size pick).length) :
    count_bits (gray (acc size pick i) ^^^ gray (acc size pick j)) = 2 := by
  subst hij
  rw [acc_eq_getElem size pick hi, acc_eq_getElem size pick (Nat.lt_of_succ_lt hi)]
  exact acc_adjacent_distance_rev size pick hi

theorem gindex_fwd_acc (size pick : Nat) (hp : 0 < pick)
    (hk : 0 < (acc_list size pick).length) {o : Nat}
    (h : o % (2 * (acc_list size pick).length) < (acc_list size pick).length) :
    (gstate size pick o).index_ =
      acc size pick (o % (2 * (acc_list size pick).length)) :=
  (gindex_fwd_pos size pick hp hk h).trans (acc_eq_getElem size pick h).symm

theorem gindex_rev_acc (size pick : Nat) (hp : 0 < pick)
    (hk : 0 < (acc_list size pick).length) {o : Nat}
    (h : (acc_list size pick).length ≤ o % (2 * (acc_list size pick).length)) :
    (gstate size pick o).index_ =
      acc size pick (2 * (acc_list size pick).length - 1 -
        o % (2 * (acc_list size pick).length)) := by
  have h2 : o % (2 * (acc_list size pick).length) < 2 * (acc_list size pick).length :=
    Nat.mod_lt _ (by omega)
  exact (gindex_rev_pos size pick hp hk h).trans (acc_eq_getElem size pick (by omega)).symm

/-- Characterization of the accepting calls: the call made at observation
index t + 1 accepts a new cursor exactly when the trajectory position of t is
neither the top of the forward phase (k - 1 mod 2k, the next call flips) nor
the bottom of the reverse phase (2k - 1 mod 2k, the next call flips back). -/
theorem accepts_at_succ_iff (size pick : Nat) (hp : 0 < pick) (hps : pick < size) (t : Nat) :
    accepts_at size pick (t + 1) ↔
      (t % (2 * (acc_list size pick).length) ≠ 2 * (acc_list size pick).length - 1 ∧
        t % (2 * (acc_list size pick).length) ≠ (acc_list size pick).length - 1) := by
  have hk2 : 2 ≤ (acc_list size pick).length := acc_list_two_le size pick hp hps
  have hk : 0 < (acc_list size pick).length := by omega
  have hrlt : t % (2 * (acc_list size pick).length) < 2 * (acc_list size pick).length :=
    Nat.mod_lt _ (by omega)
  have hsucc : (t + 1) % (2 * (acc_list size pick).length) =
      (t % (2 * (acc_list size pick).length) + 1) % (2 * (acc_list size pick).length) :=
    mod_succ_eq t _ (by omega)
  have hacc : accepts_at size pick (t + 1) ↔
      (gstate size pick (t + 1)).index_ ≠ (gstate size pick t).index_ := by
    unfold accepts_at
    constructor
    · rintro (h | h)
      · omega
      · simpa using h.2
    · intro h
      right
      exact ⟨by omega, by simpa using h⟩
  rw [hacc]
  have hcases : t % (2 * (acc_list size pick).length) < (acc_list size pick).length - 1 ∨
      t % (2 * (acc_list size pick).length) = (acc_list size pick).length - 1 ∨
      ((acc_list size pick).length ≤ t % (2 * (acc_list size pick).length) ∧
        t % (2 * (acc_list size pick).length) < 2 * (acc_list size pick).length - 1) ∨
      t % (2 * (acc_list size pick).length) = 2 * (acc_list size pick).length - 1 := by
    omega
  rcases hcases with hc | hc | ⟨hc, hcb⟩ | hc
  · -- strictly inside the forward phase: the next call accepts
    have hidx_t := gindex_fwd_pos size pick hp hk (o := t) (by omega)
    have hsval : (t + 1) % (2 * (acc_list size pick).length) =
        t % (2 * (acc_list size pick).length) + 1 := by
      rw [hsucc, Nat.mod_eq_of_lt (by omega)]
    have h1 : (gstate size pick (t + 1)).index_ =
        (acc_list size pick)[t % (2 * (acc_list size pick).length) + 1] :=
      (gindex_fwd_pos size pick hp hk (o := t + 1) (by omega)).trans
        (acc_get_congr hsval (by omega))
    constructor
    · intro _
      exact ⟨by omega, by omega⟩
    · intro _
      rw [h1, hidx_t]
      exact Nat.ne_of_gt (acc_get_lt size pick (by omega) (by omega))
  · -- top of the forward phase: the next call only flips the direction
    have hidx_t := gindex_fwd_pos size pick hp hk (o := t) (by omega)
    have hsval : (t + 1) % (2 * (acc_list size pick).length) =
        (acc_list size pick).length := by
      rw [hsucc, hc, Nat.mod_eq_of_lt (by omega)]
      omega
    have h1 : (gstate size pick (t + 1)).index_ =
        (acc_list size pick)[(acc_list size pick).length - 1] :=
      (gindex_rev_pos size pick hp hk (o := t + 1) (by omega)).trans
        (acc_get_congr (by omega) (by omega))
    have h2 : (gstate size pick t).index_ =
        (acc_list size pick)[(acc_list size pick).length - 1] :=
      hidx_t.trans (acc_get_congr (by omega) (by omega))
    constructor
    · intro hne
      exact absurd (h1.trans h2.symm) hne
    · intro hcond
      exact absurd hc hcond.2
  · -- strictly inside the reverse phase: the next call accepts
    have hidx_t := gindex_rev_pos size pick hp hk (o := t) (by omega)
    have hsval : (t + 1) % (2 * (acc_list size pick).length) =
        t % (2 * (acc_list size pick).length) + 1 := by
      rw [hsucc, Nat.mod_eq_of_lt (by omega)]
    have h1 : (gstate size pick (t + 1)).index_ =
        (acc_list size pick)[2 * (acc_list size pick).length - 1 -
          t % (2 * (acc_list size pick).length) - 1] :=
      (gindex_rev_pos size pick hp hk (o := t + 1) (by omega)).trans
        (acc_get_congr (by omega) (by omega))
    constructor
    · intro _
      exact ⟨by omega, by omega⟩
    · intro _
      rw [h1, hidx_t]
      exact Nat.ne_of_lt (acc_get_lt size pick (by omega) (by omega))
  · -- bottom of the reverse phase: the next call only flips the direction
    have hidx_t := gindex_rev_pos size pick hp hk (o := t) (by omega)
    have hsval : (t + 1) % (2 * (acc_list size pick).length) = 0 := by
      rw [hsucc, hc, show 2 * (acc_list size pick).length - 1 + 1 =
        2 * (acc_list size pick).length from by omega, Nat.mod_self]
    have h1 : (gstate size pick (t + 1)).index_ = (acc_list size pick)[0] :=
      (gindex_fwd_pos size pick hp hk (o := t + 1) (by omega)).trans
        (acc_get_congr (by omega) (by omega))
    have h2 : (gstate size pick t).index_ = (acc_list size pick)[0] :=
      hidx_t.trans (acc_get_congr (by omega) (by omega))
    constructor
    · intro hne
      exact absurd (h1.trans h2.symm) hne
    · intro hcond
      exact absurd hc hcond.1

/-- Witness for generator_mk_pick_zero at size 4. -/
theorem generator_mk_pick_zero_witness :
    (0 < 4 ∧ 4 ≤ 12) ∧
      (gray_generator_mk 4 0 =
        { size_ := 4, pick_ := 0, reversed_ := true, index_ := 0, combinations_ := 1 } ∧
        (gray_generator_mk 4 0).value = 0) :=
  ⟨by decide, generator_mk_pick_zero 4 (by decide) (by decide)⟩


theorem gobs_popcount (size pick : Nat) (hp : 0 < pick)
    (hk : 0 < (acc_list size pick).length) (o : Nat) :
    count_bits (gobs size pick o) = pick := by
  have hrlt : o % (2 * (acc_list size pick).length) < 2 * (acc_list size pick).length :=
    Nat.mod_lt _ (by omega)
  rcases Nat.lt_or_ge (o % (2 * (acc_list size pick).length)) (acc_list size pick).length
    with h | h
  · have hv : gobs size pick o =
        gray (acc size pick (o % (2 * (acc_list size pick).length))) :=
      congrArg gray (gindex_fwd_acc size pick hp hk h)
    rw [hv]
    exact acc_popcount size pick h
  · have hv : gobs size pick o =
        gray (acc size pick (2 * (acc_list size pick).length - 1 -
          o % (2 * (acc_list size pick).length))) :=
      congrArg gray (gindex_rev_acc size pick hp hk h)
    rw [hv]
    exact acc_popcount size pick (by omega)

theorem accepts_no_two_flips (size pick : Nat) (hp : 0 < pick) (hps : pick < size)
    (o1 : Nat) (hna : ¬ accepts_at size pick (o1 + 1))
    (hnb : ¬ accepts_at size pick (o1 + 2)) : False := by
  have hk2 : 2 ≤ (acc_list size pick).length := acc_list_two_le size pick hp hps
  have hnb1 : ¬ accepts_at size pick (o1 + 1 + 1) := fun h => hnb h
  rw [accepts_at_succ_iff size pick hp hps o1] at hna
  rw [accepts_at_succ_iff size pick hp hps (o1 + 1)] at hnb1
  have hna2 : o1 % (2 * (acc_list size pick).length) =
        2 * (acc_list size pick).length - 1 ∨
      o1 % (2 * (acc_list size pick).length) = (acc_list size pick).length - 1 := by
    by_contra hno
    push_neg at hno
    exact hna hno
  have hnb2 : (o1 + 1) % (2 * (acc_list size pick).length) =
        2 * (acc_list size pick).length - 1 ∨
      (o1 + 1) % (2 * (acc_list size pick).length) = (acc_list size pick).length - 1 := by
    by_contra hno
    push_neg at hno
    exact hnb1 hno
  rcases hna2 with hcv | hcv
  · have hz : (o1 + 1) % (2 * (acc_list size pick).length) = 0 := by
      rw [mod_succ_eq _ _ (by omega), hcv,
        show 2 * (acc_list size pick).length - 1 + 1 =
          2 * (acc_list size pick).length from by omega, Nat.mod_self]
    rw [hz] at hnb2
    rcases hnb2 with h | h <;> omega
  · have hz : (o1 + 1) % (2 * (acc_list size pick).length) =
        (acc_list size pick).length := by
      rw [mod_succ_eq _ _ (by omega), hcv,
        show (acc_list size pick).length - 1 + 1 = (acc_list size pick).length from by omega,
        Nat.mod_eq_of_lt (by omega)]
    rw [hz] at hnb2
    rcases hnb2 with h | h <;> omega

theorem dist_step_fwd (size pick : Nat) (hp : 0 < pick)
    (hk : 0 < (acc_list size pick).length) (o1 : Nat)
    (hf : o1 % (2 * (acc_list size pick).length) + 1 < (acc_list size pick).length) :
    count_bits (gobs size pick o1 ^^^ gobs size pick (o1 + 1)) = 2 := by
  have hs : (o1 + 1) % (2 * (acc_list size pick).length) =
      o1 % (2 * (acc_list size pick).length) + 1 := by
    rw [mod_succ_eq _ _ (by omega), Nat.mod_eq_of_lt (by omega)]
  have hv1 : gobs size pick o1 =
      gray (acc size pick (o1 % (2 * (acc_list size pick).length))) :=
    congrArg gray (gindex_fwd_acc size pick hp hk (by omega))
  have hv2 : gobs size pick (o1 + 1) =
      gray (acc size pick (o1 % (2 * (acc_list size pick).length) + 1)) :=
    congrArg gray ((gindex_fwd_acc size pick hp hk (o := o1 + 1) (by omega)).trans
      (congrArg (acc size pick) hs))
  rw [hv1, hv2]
  exact acc_dist_succ size pick rfl (by omega)

theorem dist_step_rev (size pick : Nat) (hp : 0 < pick)
    (hk : 0 < (acc_list size pick).length) (o1 : Nat)
    (hr : (acc_list size pick).length ≤ o1 % (2 * (acc_list size pick).length))
    (hlt : o1 % (2 * (acc_list size pick).length) + 1 < 2 * (acc_list size pick).length) :
    count_bits (gobs size pick o1 ^^^ gobs size pick (o1 + 1)) = 2 := by
  have hs : (o1 + 1) % (2 * (acc_list size pick).length) =
      o1 % (2 * (acc_list size pick).length) + 1 := by
    rw [mod_succ_eq _ _ (by omega), Nat.mod_eq_of_lt (by omega)]
  have hv1 : gobs size pick o1 =
      gray (acc size pick (2 * (acc_list size pick).length - 1 -
        o1 % (2 * (acc_list size pick).length))) :=
    congrArg gray (gindex_rev_acc size pick hp hk hr)
  have hv2 : gobs size pick (o1 + 1) =
      gray (acc size pick (2 * (acc_list size pick).length - 1 -
        o1 % (2 * (acc_list size pick).length) - 1)) :=
    congrArg gray ((gindex_rev_acc size pick hp hk (o := o1 + 1) (by omega)).trans
      (congrArg (acc size pick) (by omega)))
  rw [hv1, hv2]
  exact acc_dist_pred size pick (by omega) (by omega)

theorem dist_flip_bottom (size pick : Nat) (hp : 0 < pick)
    (hk2 : 2 ≤ (acc_list size pick).length) (o1 : Nat)
    (hcv : o1 % (2 * (acc_list size pick).length) = 2 * (acc_list size pick).length - 1) :
    count_bits (gobs size pick o1 ^^^ gobs size pick (o1 + 2)) = 2 := by
  have hk : 0 < (acc_list size pick).length := by omega
  have hv1 : gobs size pick o1 = gray (acc size pick 0) :=
    congrArg gray ((gindex_rev_acc size pick hp hk (o := o1) (by omega)).trans
      (congrArg (acc size pick) (by omega)))
  have hm2 : (o1 + 2) % (2 * (acc_list size pick).length) = 1 := by
    conv_lhs => rw [Nat.add_mod]
    rw [hcv, Nat.mod_eq_of_lt (show 2 < 2 * (acc_list size pick).length from by omega),
      show 2 * (acc_list size pick).length - 1 + 2 =
        2 * (acc_list size pick).length + 1 from by omega,
      Nat.add_mod_left]
    exact Nat.mod_eq_of_lt (by omega)
  have hv2 : gobs size pick (o1 + 2) = gray (acc size pick 1) :=
    congrArg gray ((gindex_fwd_acc size pick hp hk (o := o1 + 2) (by omega)).trans
      (congrArg (acc size pick) hm2))
  rw [hv1, hv2]
  exact acc_dist_succ size pick (by omega) (by omega)

theorem dist_flip_top (size pick : Nat) (hp : 0 < pick)
    (hk2 : 2 ≤ (acc_list size pick).length) (o1 : Nat)
    (hcv : o1 % (2 * (acc_list size pick).length) = (acc_list size pick).length - 1) :
    count_bits (gobs size pick o1 ^^^ gobs size pick (o1 + 2)) = 2 := by
  have hk : 0 < (acc_list size pick).length := by omega
  have hv1 : gobs size pick o1 = gray (acc size pick ((acc_list size pick).length - 1)) :=
    congrArg gray ((gindex_fwd_acc size pick hp hk (o := o1) (by omega)).trans
      (congrArg (acc size pick) hcv))
  have hm2 : (o1 + 2) % (2 * (acc_list size pick).length) =
      (acc_list size pick).length + 1 := by
    conv_lhs => rw [Nat.add_mod]
    rw [hcv, Nat.mod_eq_of_lt (show 2 < 2 * (acc_list size pick).length from by omega),
      show (acc_list size pick).length - 1 + 2 =
        (acc_list size pick).length + 1 from by omega]
    exact Nat.mod_eq_of_lt (by omega)
  have hv2 : gobs size pick (o1 + 2) =
      gray (acc size pick ((acc_list size pick).length - 2)) :=
    congrArg gray ((gindex_rev_acc size pick hp hk (o := o1 + 2) (by omega)).trans
      (congrArg (acc size pick) (by omega)))
  rw [hv1, hv2]
  exact acc_dist_pred size pick (by omega) (by omega)

/-- C4: for every size and pick with 0 < pick < size, any two consecutive
accepted values of gray_generator_t (consecutive observations of value()
whose calls accepted a new cursor, with no accepting call strictly in
between, whether in the forward phase, the reverse phase, or straddling a
direction flip) each have popcount pick and are at Hamming distance exactly
2 from one another. -/
theorem generator_consecutive_accepts_distance (size pick : Nat)
    (hp : 0 < pick) (hps : pick < size) (o1 o2 : Nat)
    (h1 : accepts_at size pick o1) (h2 : accepts_at size pick o2)
    (h12 : o1 < o2)
    (hmid : ∀ o, o1 < o → o < o2 → ¬ accepts_at size pick o) :
    count_bits (gobs size pick o1) = pick ∧
      count_bits (gobs size pick o2) = pick ∧
      count_bits (gobs size pick o1 ^^^ gobs size pick o2) = 2 := by
  have hk2 : 2 ≤ (acc_list size pick).length := acc_list_two_le size pick hp hps
  have hk : 0 < (acc_list size pick).length := by omega
  refine ⟨gobs_popcount size pick hp hk o1, gobs_popcount size pick hp hk o2, ?_⟩
  have hrlt : o1 % (2 * (acc_list size pick).length) < 2 * (acc_list size pick).length :=
    Nat.mod_lt _ (by omega)
  have hgap : o2 = o1 + 1 ∨ o2 = o1 + 2 := by
    by_contra hcon
    push_neg at hcon
    exact accepts_no_two_flips size pick hp hps o1
      (hmid _ (by omega) (by omega)) (hmid _ (by omega) (by omega))
  rcases hgap with rfl | rfl
  · have ha := (accepts_at_succ_iff size pick hp hps o1).mp h2
    rcases Nat.lt_or_ge (o1 % (2 * (acc_list size pick).length)) (acc_list size pick).length
      with hf | hr
    · exact dist_step_fwd size pick hp hk o1 (by omega)
    · exact dist_step_rev size pick hp hk o1 hr (by omega)
  · have hna : ¬ accepts_at size pick (o1 + 1) := hmid _ (by omega) (by omega)
    rw [accepts_at_succ_iff size pick hp hps o1] at hna
    have hna2 : o1 % (2 * (acc_list size pick).length) =
          2 * (acc_list size pick).length - 1 ∨
        o1 % (2 * (acc_list size pick).length) = (acc_list size pick).length - 1 := by
      by_contra hno
      push_neg at hno
      exact hna hno
    rcases hna2 with hcv | hcv
    · exact dist_flip_bottom size pick hp hk2 o1 hcv
    · exact dist_flip_top size pick hp hk2 o1 hcv

/-- Witness for generator_consecutive_accepts_distance at size 4, pick 3,
with the consecutive accepting observations 0 and 1. -/
theorem generator_consecutive_accepts_distance_witness :
    accepts_at 4 3 0 ∧ accepts_at 4 3 1 ∧
      (count_bits (gobs 4 3 0) = 3 ∧ count_bits (gobs 4 3 1) = 3 ∧
        count_bits (gobs 4 3 0 ^^^ gobs 4 3 1) = 2) := by
  have h1 : accepts_at 4 3 0 := Or.inl rfl
  have h2 : accepts_at 4 3 1 := Or.inr ⟨by omega, by decide⟩
  exact ⟨h1, h2,
    generator_consecutive_accepts_distance 4 3 (by omega) (by omega) 0 1 h1 h2 (by omega)
      (by intro o ho1 ho2 _; omega)⟩


theorem one_by_one_scalar {k : Nat} (X : Matrix (Fin k) (Fin 1) ℚ)
    (M : Matrix (Fin 1) (Fin 1) ℚ) (Y : Matrix (Fin 1) (Fin k) ℚ) :
    X * M * Y = M 0 0 • (X * Y) := by
  have hM : M = M 0 0 • (1 : Matrix (Fin 1) (Fin 1) ℚ) := by
    ext i j
    fin_cases i
    fin_cases j
    simp [Matrix.one_apply]
  conv_lhs => rw [hM]
  rw [Matrix.mul_smul, Matrix.mul_one, Matrix.smul_mul]

theorem smul_cancel_aux {k : Nat} (d : ℚ) (hd : 1 + d ≠ 0) (X : Matrix (Fin k) (Fin k) ℚ) :
    (1 + d)⁻¹ • X + (1 + d)⁻¹ • d • X = X := by
  rw [smul_smul, ← add_smul,
    show (1 + d)⁻¹ + (1 + d)⁻¹ * d = (1 + d)⁻¹ * (1 + d) from by ring,
    inv_mul_cancel₀ hd, one_smul]

theorem sherman_right_inv {k : Nat} (A inv : Matrix (Fin k) (Fin k) ℚ)
    (u : Matrix (Fin k) (Fin 1) ℚ) (v : Matrix (Fin 1) (Fin k) ℚ)
    (hA1 : A * inv = 1) (hd : 1 + (v * inv * u) 0 0 ≠ 0) :
    (A + u * v) * sherman_morrison_update_inverse inv u v = 1 := by
  have hAS : A * (inv * u * (v * inv)) = u * (v * inv) := by
    rw [← Matrix.mul_assoc A (inv * u) (v * inv), ← Matrix.mul_assoc A inv u, hA1,
      Matrix.one_mul]
  have huvS : u * v * (inv * u * (v * inv)) = (v * inv * u) 0 0 • (u * (v * inv)) := by
    have h1 : u * v * (inv * u * (v * inv)) = u * (v * inv * u) * (v * inv) := by
      simp only [Matrix.mul_assoc]
    rw [h1, one_by_one_scalar]
  have key : ∀ X : Matrix (Fin k) (Fin k) ℚ,
      1 - (1 + (v * inv * u) 0 0)⁻¹ • X +
        (X - (1 + (v * inv * u) 0 0)⁻¹ • (v * inv * u) 0 0 • X) = 1 := by
    intro X
    calc 1 - (1 + (v * inv * u) 0 0)⁻¹ • X +
          (X - (1 + (v * inv * u) 0 0)⁻¹ • (v * inv * u) 0 0 • X)
        = 1 + (X - ((1 + (v * inv * u) 0 0)⁻¹ • X +
            (1 + (v * inv * u) 0 0)⁻¹ • (v * inv * u) 0 0 • X)) := by abel
      _ = 1 := by rw [smul_cancel_aux _ hd, sub_self, add_zero]
  unfold sherman_morrison_update_inverse
  rw [Matrix.add_mul, Matrix.mul_sub, Matrix.mul_sub, Matrix.mul_smul, Matrix.mul_smul,
    hA1, hAS, huvS, Matrix.mul_assoc u v inv]
  exact key (u * (v * inv))

theorem sherman_left_inv {k : Nat} (A inv : Matrix (Fin k) (Fin k) ℚ)
    (u : Matrix (Fin k) (Fin 1) ℚ) (v : Matrix (Fin 1) (Fin k) ℚ)
    (hA2 : inv * A = 1) (hd : 1 + (v * inv * u) 0 0 ≠ 0) :
    sherman_morrison_update_inverse inv u v * (A + u * v) = 1 := by
  have hSA : inv * u * (v * inv) * A = inv * (u * v) := by
    simp only [Matrix.mul_assoc]
    rw [hA2, Matrix.mul_one]
  have hSuv : inv * u * (v * inv) * (u * v) = (v * inv * u) 0 0 • (inv * (u * v)) := by
    have h1 : inv * u * (v * inv) * (u * v) = inv * u * (v * inv * u) * v := by
      simp only [Matrix.mul_assoc]
    rw [h1, one_by_one_scalar, Matrix.mul_assoc inv u v]
  have key : ∀ X : Matrix (Fin k) (Fin k) ℚ,
      1 + X - ((1 + (v * inv * u) 0 0)⁻¹ • X +
        (1 + (v * inv * u) 0 0)⁻¹ • (v * inv * u) 0 0 • X) = 1 := by
    intro X
    calc 1 + X - ((1 + (v * inv * u) 0 0)⁻¹ • X +
          (1 + (v * inv * u) 0 0)⁻¹ • (v * inv * u) 0 0 • X)
        = 1 + (X - ((1 + (v * inv * u) 0 0)⁻¹ • X +
            (1 + (v * inv * u) 0 0)⁻¹ • (v * inv * u) 0 0 • X)) := by abel
      _ = 1 := by rw [smul_cancel_aux _ hd, sub_self, add_zero]
  unfold sherman_morrison_update_inverse
  rw [Matrix.sub_mul, Matrix.mul_add, Matrix.mul_add, Matrix.smul_mul, Matrix.smul_mul,
    hA2, hSA, hSuv]
  exact key (inv * (u * v))

theorem add_unit_row_update {k : Nat} (A : Matrix (Fin k) (Fin k) ℚ)
    (slot : Fin k) (r : Fin k → ℚ) :
    A + unit_col slot * row_delta A slot r = A.updateRow slot r := by
  ext i j
  rw [Matrix.add_apply, Matrix.mul_apply, Fin.sum_univ_one, Matrix.updateRow_apply]
  by_cases h : i = slot <;> simp [unit_col, row_delta, h] <;> ring

theorem add_unit_col_update {k : Nat} (A : Matrix (Fin k) (Fin k) ℚ)
    (slot : Fin k) (c : Fin k → ℚ) :
    A + col_delta A slot c * unit_row slot = A.updateColumn slot c := by
  ext i j
  rw [Matrix.add_apply, Matrix.mul_apply, Fin.sum_univ_one, Matrix.updateColumn_apply]
  by_cases h : j = slot <;> simp [col_delta, unit_row, h] <;> ring

/-- C2: over exact rational arithmetic, if inv is a two-sided inverse of A
and the denominator 1 + v * inv * u is nonzero, then
sherman_morrison_update_inverse inv u v is a two-sided inverse of A + u * v
and equals (A + u * v)⁻¹; consequently the driver loop pattern — a
rank-one row replacement at a slot followed by a rank-one column
replacement at the same slot, each via sherman_morrison_update_inverse with
nonzero denominators — yields exactly the inverse of the mutated
combination matrix updateColumn (updateRow A slot r) slot c. -/
theorem sherman_morrison_correct {k : Nat}
    (A inv : Matrix (Fin k) (Fin k) ℚ)
    (u : Matrix (Fin k) (Fin 1) ℚ) (v : Matrix (Fin 1) (Fin k) ℚ)
    (slot : Fin k) (r c : Fin k → ℚ)
    (hA1 : A * inv = 1) (hA2 : inv * A = 1)
    (hd : 1 + (v * inv * u) 0 0 ≠ 0)
    (hd1 : 1 + (row_delta A slot r * inv * unit_col slot) 0 0 ≠ 0)
    (hd2 : 1 + (unit_row slot *
      sherman_morrison_update_inverse inv (unit_col slot) (row_delta A slot r) *
      col_delta (A.updateRow slot r) slot c) 0 0 ≠ 0) :
    (A + u * v) * sherman_morrison_update_inverse inv u v = 1 ∧
      sherman_morrison_update_inverse inv u v * (A + u * v) = 1 ∧
      sherman_morrison_update_inverse inv u v = (A + u * v)⁻¹ ∧
      sherman_morrison_update_inverse
          (sherman_morrison_update_inverse inv (unit_col slot) (row_delta A slot r))
          (col_delta (A.updateRow slot r) slot c) (unit_row slot) =
        ((A.updateRow slot r).updateColumn slot c)⁻¹ := by
  refine ⟨sherman_right_inv A inv u v hA1 hd, sherman_left_inv A inv u v hA2 hd,
    (Matrix.inv_eq_right_inv (sherman_right_inv A inv u v hA1 hd)).symm, ?_⟩
  have h1r : A.updateRow slot r *
      sherman_morrison_update_inverse inv (unit_col slot) (row_delta A slot r) = 1 := by
    rw [← add_unit_row_update A slot r]
    exact sherman_right_inv A inv (unit_col slot) (row_delta A slot r) hA1 hd1
  have h2r : (A.updateRow slot r).updateColumn slot c *
      sherman_morrison_update_inverse
        (sherman_morrison_update_inverse inv (unit_col slot) (row_delta A slot r))
        (col_delta (A.updateRow slot r) slot c) (unit_row slot) = 1 := by
    rw [← add_unit_col_update (A.updateRow slot r) slot c]
    exact sherman_right_inv (A.updateRow slot r)
      (sherman_morrison_update_inverse inv (unit_col slot) (row_delta A slot r))
      (col_delta (A.updateRow slot r) slot c) (unit_row slot) h1r hd2
  exact (Matrix.inv_eq_right_inv h2r).symm

/-- Witness for sherman_morrison_correct on 1 x 1 rational matrices: A = [2],
inv = [1/2], u = [3], v = [5], slot 0, replacement row value 3 and column
value 5; all three denominators are nonzero. -/
theorem sherman_morrison_correct_witness :
    (!![(2 : ℚ)] * !![(1 : ℚ)/2] = 1) ∧
    (!![(1 : ℚ)/2] * !![(2 : ℚ)] = 1) ∧
    1 + (!![(5 : ℚ)] * !![(1 : ℚ)/2] * !![(3 : ℚ)]) 0 0 ≠ 0 ∧
    1 + ((row_delta !![(2 : ℚ)] 0 (fun _ => (3 : ℚ)) * !![(1 : ℚ)/2] * unit_col 0 :
      Matrix (Fin 1) (Fin 1) ℚ)) 0 0 ≠ 0 ∧
    1 + ((unit_row 0 *
      sherman_morrison_update_inverse !![(1 : ℚ)/2] (unit_col 0)
        (row_delta !![(2 : ℚ)] 0 (fun _ => (3 : ℚ))) *
      col_delta (Matrix.updateRow !![(2 : ℚ)] 0 (fun _ => (3 : ℚ))) 0
        (fun _ => (5 : ℚ)) : Matrix (Fin 1) (Fin 1) ℚ)) 0 0 ≠ 0 ∧
    ((!![(2 : ℚ)] + !![(3 : ℚ)] * !![(5 : ℚ)]) *
        sherman_morrison_update_inverse !![(1 : ℚ)/2] !![(3 : ℚ)] !![(5 : ℚ)] = 1 ∧
      sherman_morrison_update_inverse !![(1 : ℚ)/2] !![(3 : ℚ)] !![(5 : ℚ)] *
        (!![(2 : ℚ)] + !![(3 : ℚ)] * !![(5 : ℚ)]) = 1 ∧
      sherman_morrison_update_inverse !![(1 : ℚ)/2] !![(3 : ℚ)] !![(5 : ℚ)] =
        (!![(2 : ℚ)] + !![(3 : ℚ)] * !![(5 : ℚ)])⁻¹ ∧
      sherman_morrison_update_inverse
          (sherman_morrison_update_inverse !![(1 : ℚ)/2] (unit_col 0)
            (row_delta !![(2 : ℚ)] 0 (fun _ => (3 : ℚ))))
          (col_delta (Matrix.updateRow !![(2 : ℚ)] 0 (fun _ => (3 : ℚ))) 0
            (fun _ => (5 : ℚ))) (unit_row 0) =
        ((Matrix.updateRow !![(2 : ℚ)] 0 (fun _ => (3 : ℚ))).updateColumn 0
          (fun _ => (5 : ℚ)))⁻¹) := by
  have hA1 : !![(2 : ℚ)] * !![(1 : ℚ)/2] = 1 := by
    ext i j
    norm_num [Matrix.mul_apply, Fin.sum_univ_one, Matrix.one_apply, Matrix.cons_val_fin_one,
      eq_iff_true_of_subsingleton]
  have hA2 : !![(1 : ℚ)/2] * !![(2 : ℚ)] = 1 := by
    ext i j
    norm_num [Matrix.mul_apply, Fin.sum_univ_one, Matrix.one_apply, Matrix.cons_val_fin_one,
      eq_iff_true_of_subsingleton]
  have hd : 1 + (!![(5 : ℚ)] * !![(1 : ℚ)/2] * !![(3 : ℚ)]) 0 0 ≠ 0 := by
    norm_num [Matrix.mul_apply, Fin.sum_univ_one, Matrix.cons_val_fin_one]
  have hd1 : 1 + ((row_delta !![(2 : ℚ)] 0 (fun _ => (3 : ℚ)) * !![(1 : ℚ)/2] *
      unit_col 0 : Matrix (Fin 1) (Fin 1) ℚ)) 0 0 ≠ 0 := by
    norm_num [row_delta, unit_col, Matrix.mul_apply, Fin.sum_univ_one,
      Matrix.cons_val_fin_one]
  have hd2 : 1 + ((unit_row 0 *
      sherman_morrison_update_inverse !![(1 : ℚ)/2] (unit_col 0)
        (row_delta !![(2 : ℚ)] 0 (fun _ => (3 : ℚ))) *
      col_delta (Matrix.updateRow !![(2 : ℚ)] 0 (fun _ => (3 : ℚ))) 0
        (fun _ => (5 : ℚ)) : Matrix (Fin 1) (Fin 1) ℚ)) 0 0 ≠ 0 := by
    have hsm : sherman_morrison_update_inverse !![(1 : ℚ)/2] (unit_col 0)
        (row_delta !![(2 : ℚ)] 0 (fun _ => (3 : ℚ))) = !![(1 : ℚ)/3] := by
      ext i j
      fin_cases i
      fin_cases j
      simp only [sherman_morrison_update_inverse, unit_col, row_delta, Matrix.mul_apply,
        Fin.sum_univ_one, Matrix.sub_apply, Matrix.smul_apply, Matrix.cons_val_fin_one,
        smul_eq_mul, Matrix.of_apply, if_pos]
      norm_num
    rw [hsm]
    simp only [unit_row, col_delta, Matrix.mul_apply, Fin.sum_univ_one,
      Matrix.cons_val_fin_one, Matrix.updateRow_apply, Matrix.of_apply, if_pos]
    norm_num
  exact ⟨hA1, hA2, hd, hd1, hd2,
    sherman_morrison_correct !![(2 : ℚ)] !![(1 : ℚ)/2] !![(3 : ℚ)] !![(5 : ℚ)] 0
      (fun _ => (3 : ℚ)) (fun _ => (5 : ℚ)) hA1 hA2 hd hd1 hd2⟩

end Invert
